import Mathlib

/-!
# PackedSerial: COBS framing over a byte stream

A shallow embedding of `src/PackedSerial.h` (classes `COBS` and `PackedSerial<BufferSize>`)
and the properties proved about it.

Modelling conventions.

* `uint8_t` is `Fin 256` (`Byte`); arithmetic on it wraps modulo 256 as in C.
* `size_t` quantities (indices and lengths) are natural numbers.  Every one of them is bounded
  by the length of a buffer that exists in memory next to a second buffer of at least the same
  order of size, so no `size_t` computation of the source wraps.
* A C array is a `List Byte` whose length is the allocated capacity.  Every load and every store
  is bounds-checked against that capacity: an access outside the array is undefined behaviour in
  C and makes the embedded function return `none`.  Loops run on a fuel counter; running out of
  fuel also gives `none`.  The theorems show that the functions return `some _`.
* An array that the source leaves uninitialised (`_encodeBuffer`, `_decodeBuffer`, and
  `_receiveBuffer` at construction) has arbitrary content.  `encode_eq` and `decode_take` show
  that the bytes below the returned length do not depend on it, so `send` and `update()` fill
  their local arrays with zeros.
* A `Stream` is the environment: `update` is given the bytes that `_stream->read()` yields while
  `_stream->available() > 0`, and `send` returns the bytes handed to `_stream->write`.
  Function pointers and the stream pointer are `Option Nat` (`none` is `nullptr`).
-/

set_option autoImplicit false

/-- A `uint8_t`. -/
abbrev Byte := Fin 256

/-- The assignment `buf[i] = v` on an array of capacity `buf.length`. -/
def store (buf : List Byte) (i : Nat) (v : Byte) : Option (List Byte) :=
  if i < buf.length then some (buf.set i v) else none

namespace COBS

/-- The local variables of `COBS::encode` together with the output array. -/
structure EncodeState where
  read_index : Nat
  write_index : Nat
  code_index : Nat
  code : Byte
  encodedBuffer : List Byte
deriving DecidableEq, Repr

/-- The `while (read_index < size)` loop of `COBS::encode`. -/
def encodeLoop (buffer : List Byte) (size : Nat) : Nat → EncodeState → Option EncodeState
  | 0, s => if s.read_index < size then none else some s
  | fuel + 1, s =>
    if s.read_index < size then
      match buffer[s.read_index]? with
      | none => none
      | some b =>
        if b = 0 then
          match store s.encodedBuffer s.code_index s.code with
          | none => none
          | some eb =>
            encodeLoop buffer size fuel
              { read_index := s.read_index + 1
                write_index := s.write_index + 1
                code_index := s.write_index
                code := 1
                encodedBuffer := eb }
        else
          match store s.encodedBuffer s.write_index b with
          | none => none
          | some eb =>
            if s.code + 1 = 0xFF then
              match store eb s.code_index (s.code + 1) with
              | none => none
              | some eb2 =>
                encodeLoop buffer size fuel
                  { read_index := s.read_index + 1
                    write_index := s.write_index + 1 + 1
                    code_index := s.write_index + 1
                    code := 1
                    encodedBuffer := eb2 }
            else
              encodeLoop buffer size fuel
                { read_index := s.read_index + 1
                  write_index := s.write_index + 1
                  code_index := s.code_index
                  code := s.code + 1
                  encodedBuffer := eb }
    else some s

/-- The end of `COBS::encode` after the loop: `encodedBuffer[code_index] = code;` and
`return write_index;`. -/
def encodeFinish (s : EncodeState) : Option (Nat × List Byte) :=
  match store s.encodedBuffer s.code_index s.code with
  | none => none
  | some eb => some (s.write_index, eb)

/-- `COBS::encode(buffer, size, encodedBuffer)`: the returned length and the output array. -/
def encode (buffer : List Byte) (size : Nat) (encodedBuffer : List Byte) :
    Option (Nat × List Byte) :=
  match encodeLoop buffer size size
      { read_index := 0, write_index := 1, code_index := 0, code := 1,
        encodedBuffer := encodedBuffer } with
  | none => none
  | some s => encodeFinish s

/-- The local variables `read_index`, `write_index` of `COBS::decode` and the output array. -/
structure DecodeState where
  read_index : Nat
  write_index : Nat
  decodedBuffer : List Byte
deriving DecidableEq, Repr

/-- The inner loop `for (i = 1; i < code; i++)` of `COBS::decode`, run for the `code - 1`
iterations it makes (none when `code` is 0 or 1). -/
def decodeCopy (encodedBuffer : List Byte) : Nat → DecodeState → Option DecodeState
  | 0, s => some s
  | n + 1, s =>
    match encodedBuffer[s.read_index]? with
    | none => none
    | some b =>
      match store s.decodedBuffer s.write_index b with
      | none => none
      | some d =>
        decodeCopy encodedBuffer n
          { read_index := s.read_index + 1, write_index := s.write_index + 1, decodedBuffer := d }

/-- The `while (read_index < size)` loop of `COBS::decode`; the result is the returned value
and the output array. -/
def decodeLoop (encodedBuffer : List Byte) (size : Nat) :
    Nat → DecodeState → Option (Nat × List Byte)
  | 0, s => if s.read_index < size then none else some (s.write_index, s.decodedBuffer)
  | fuel + 1, s =>
    if s.read_index < size then
      match encodedBuffer[s.read_index]? with
      | none => none
      | some code =>
        if s.read_index + code.val > size ∧ code ≠ 1 then
          some (0, s.decodedBuffer)
        else
          match decodeCopy encodedBuffer (code.val - 1) { s with read_index := s.read_index + 1 } with
          | none => none
          | some s1 =>
            if code ≠ 0xFF ∧ s1.read_index ≠ size then
              match store s1.decodedBuffer s1.write_index 0 with
              | none => none
              | some d =>
                decodeLoop encodedBuffer size fuel
                  { s1 with write_index := s1.write_index + 1, decodedBuffer := d }
            else
              decodeLoop encodedBuffer size fuel s1
    else some (s.write_index, s.decodedBuffer)

/-- `COBS::decode(encodedBuffer, size, decodedBuffer)`: the returned value and the output
array. -/
def decode (encodedBuffer : List Byte) (size : Nat) (decodedBuffer : List Byte) :
    Option (Nat × List Byte) :=
  if size = 0 then some (0, decodedBuffer)
  else
    decodeLoop encodedBuffer size size
      { read_index := 0, write_index := 0, decodedBuffer := decodedBuffer }

/-- `COBS::getEncodedBufferSize`. -/
def getEncodedBufferSize (unencodedBufferSize : Nat) : Nat :=
  unencodedBufferSize + unencodedBufferSize / 254 + 1

end COBS

/-- One call of the registered packet handler: the function called and the `size` bytes at
`buffer` it is given. -/
structure Invocation where
  handler : Nat
  payload : List Byte
deriving DecidableEq, Repr

/-- A call of one of the public methods of `PackedSerial<BufferSize>`, with its arguments;
for `update()` the bytes the stream delivers during the call. -/
inductive Call where
  | setStream (stream : Nat)
  | setPacketHandler (onPacketFunction : Option Nat)
  | update (available : List Byte)
  | send (buffer : Option (List Byte)) (size : Nat)
deriving DecidableEq, Repr

/-- The data members of `PackedSerial<BufferSize>`. -/
structure PackedSerial (BufferSize : Nat) where
  _receiveBuffer : List Byte
  _receiveBufferIndex : Nat
  _stream : Option Nat
  _onPacketFunction : Option Nat
deriving DecidableEq, Repr

namespace PackedSerial

variable {BufferSize : Nat}

/-- The constructor `PackedSerial()`; `storage` is the content of the `BufferSize` bytes of
`_receiveBuffer`, which the constructor does not initialise. -/
def construct (BufferSize : Nat) (storage : Fin BufferSize → Byte) : PackedSerial BufferSize :=
  { _receiveBuffer := List.ofFn storage
    _receiveBufferIndex := 0
    _stream := none
    _onPacketFunction := none }

/-- `setStream(stream)`. -/
def setStream (self : PackedSerial BufferSize) (stream : Nat) : PackedSerial BufferSize :=
  { self with _stream := some stream }

/-- `setPacketHandler(onPacketFunction)`; `none` is a null function pointer. -/
def setPacketHandler (self : PackedSerial BufferSize) (onPacketFunction : Option Nat) :
    PackedSerial BufferSize :=
  { self with _onPacketFunction := onPacketFunction }

/-- The body of the `while` loop of `update()` for one byte `data` read from the stream: the
new state and the handler calls made. -/
def receive (self : PackedSerial BufferSize) (data : Byte) :
    Option (PackedSerial BufferSize × List Invocation) :=
  if data = 0 then
    match self._onPacketFunction with
    | some f =>
      match COBS.decode self._receiveBuffer self._receiveBufferIndex
          (List.replicate self._receiveBufferIndex 0) with
      | none => none
      | some (numDecoded, _decodeBuffer) =>
        some ({ self with _receiveBufferIndex := 0 }, [⟨f, _decodeBuffer.take numDecoded⟩])
    | none => some ({ self with _receiveBufferIndex := 0 }, [])
  else
    if self._receiveBufferIndex + 1 < BufferSize then
      match store self._receiveBuffer self._receiveBufferIndex data with
      | none => none
      | some buf =>
        some ({ self with _receiveBuffer := buf
                          _receiveBufferIndex := self._receiveBufferIndex + 1 }, [])
    else some (self, [])

/-- The `while (_stream->available() > 0)` loop of `update()` over the bytes the stream
delivers. -/
def updateLoop : List Byte → PackedSerial BufferSize →
    Option (PackedSerial BufferSize × List Invocation)
  | [], s => some (s, [])
  | data :: rest, s =>
    match receive s data with
    | none => none
    | some (s1, calls1) =>
      match updateLoop rest s1 with
      | none => none
      | some (s2, calls2) => some (s2, calls1 ++ calls2)

/-- `update()`, where `available` are the bytes the stream delivers during the call. -/
def update (self : PackedSerial BufferSize) (available : List Byte) :
    Option (PackedSerial BufferSize × List Invocation) :=
  if self._stream = none then some (self, []) else updateLoop available self

/-- `send(buffer, size)`: the bytes written to the stream, in order (`buffer = none` is a null
pointer).  The method is `const`: the state is unchanged. -/
def send (self : PackedSerial BufferSize) (buffer : Option (List Byte)) (size : Nat) :
    Option (List Byte) :=
  match self._stream, buffer with
  | none, _ => some []
  | some _, none => some []
  | some _, some buf =>
    if size = 0 then some []
    else
      match COBS.encode buf size (List.replicate (COBS.getEncodedBufferSize size) 0) with
      | none => none
      | some (numEncoded, _encodeBuffer) => some (_encodeBuffer.take numEncoded ++ [0])

/-- Successive calls of `update()`, one for each chunk of bytes the stream delivers; the handler
calls of all of them in order. -/
def updateCalls : List (List Byte) → PackedSerial BufferSize →
    Option (PackedSerial BufferSize × List Invocation)
  | [], s => some (s, [])
  | chunk :: chunks, s =>
    match update s chunk with
    | none => none
    | some (s1, calls1) =>
      match updateCalls chunks s1 with
      | none => none
      | some (s2, calls2) => some (s2, calls1 ++ calls2)

/-- The effect of one call of a public method: the new state, the handler calls made and the
bytes written to the stream.  `send` is a `const` method and assigns to no member. -/
def call (self : PackedSerial BufferSize) :
    Call → Option (PackedSerial BufferSize × List Invocation × List Byte)
  | .setStream stream => some (self.setStream stream, [], [])
  | .setPacketHandler onPacketFunction => some (self.setPacketHandler onPacketFunction, [], [])
  | .update available =>
    match self.update available with
    | none => none
    | some (s1, calls) => some (s1, calls, [])
  | .send buffer size =>
    match self.send buffer size with
    | none => none
    | some written => some (self, [], written)

/-- A sequence of calls of public methods, one after the other. -/
def callAll : List Call → PackedSerial BufferSize →
    Option (PackedSerial BufferSize × List Invocation × List Byte)
  | [], s => some (s, [], [])
  | c :: cs, s =>
    match call s c with
    | none => none
    | some (s1, calls1, written1) =>
      match callAll cs s1 with
      | none => none
      | some (s2, calls2, written2) => some (s2, calls1 ++ calls2, written1 ++ written2)

/-- The state invariant of the class: `_receiveBuffer` has `BufferSize` bytes and the index is
at most `BufferSize - 1`. -/
def WF (s : PackedSerial BufferSize) : Prop :=
  s._receiveBuffer.length = BufferSize ∧ s._receiveBufferIndex ≤ BufferSize - 1

/-- Two states that agree on everything `update()` can observe: the index, the bytes buffered
below it, the handler, and whether a stream is set. -/
def Sim (s t : PackedSerial BufferSize) : Prop :=
  WF s ∧ WF t ∧ s._receiveBufferIndex = t._receiveBufferIndex
    ∧ s._receiveBuffer.take s._receiveBufferIndex = t._receiveBuffer.take t._receiveBufferIndex
    ∧ s._onPacketFunction = t._onPacketFunction
    ∧ (s._stream = none ↔ t._stream = none)

end PackedSerial

/-! ## Characterisations used in the proofs

The functions below are not part of the source.  They describe, on plain lists, what the loops
above compute; the refinement lemmas `encode_eq` and `decode_eq` connect them to the code. -/

/-- The byte `n mod 256`. -/
def codeOf (n : Nat) : Byte := ⟨n % 256, Nat.mod_lt _ (by decide)⟩

/-- The encoding of `lits ++ input`, where `lits` are the literals of the group that is open
when `input` remains to be read. -/
def encGroups (lits : List Byte) : List Byte → List Byte
  | [] => codeOf (lits.length + 1) :: lits
  | b :: rest =>
    if b = 0 then (codeOf (lits.length + 1) :: lits) ++ encGroups [] rest
    else if lits.length + 2 = 255 then (0xFF :: (lits ++ [b])) ++ encGroups [] rest
    else encGroups (lits ++ [b]) rest

/-- What the loop of `COBS::decode` does on the input `l` that remains to be read: the bytes it
writes, and whether it reaches the end of the input (`false` when it meets a group whose code
is not 1 and exceeds the number of bytes left, where the source returns 0). -/
def decGroups : List Byte → List Byte × Bool
  | [] => ([], true)
  | c :: rest =>
    if c.val > rest.length + 1 ∧ c ≠ 1 then ([], false)
    else
      (rest.take (c.val - 1)
          ++ ((if c ≠ 0xFF ∧ rest.drop (c.val - 1) ≠ [] then [0] else [])
            ++ (decGroups (rest.drop (c.val - 1))).1),
        (decGroups (rest.drop (c.val - 1))).2)
termination_by l => l.length
decreasing_by all_goals (simp; omega)

/-- The message `COBS::decode` delivers for the encoded bytes `l`: the first `returned value`
bytes of the decoded array. -/
def decodeList (l : List Byte) : List Byte :=
  if (decGroups l).2 then (decGroups l).1 else []

/-- An encoded input in which some group's code byte, other than 1, declares more bytes than
remain in the input.  The groups are taken from the front: a code byte `c` heads a group of
`c` bytes, itself and `c - 1` literals (a code byte 0 or 1 stands alone).  The first argument
bounds the number of groups looked at. -/
def malformedFrom : Nat → List Byte → Bool
  | 0, _ => false
  | _ + 1, [] => false
  | fuel + 1, c :: rest =>
    if c ≠ 1 ∧ c.val > rest.length + 1 then true
    else malformedFrom fuel (rest.drop (c.val - 1))

/-- An encoded input with a group that declares more bytes than remain; see `malformedFrom`. -/
def malformed (l : List Byte) : Bool := malformedFrom l.length l

/-! ## Lemmas on `store` -/

theorem store_append_cons (a b : List Byte) (x v : Byte) :
    store (a ++ x :: b) a.length v = some (a ++ v :: b) := by
  simp [store]

theorem store_at (a b : List Byte) (x v : Byte) (i : Nat) (h : i = a.length) :
    store (a ++ x :: b) i v = some (a ++ v :: b) := by
  subst h; exact store_append_cons a b x v

theorem getElem?_at (a b : List Byte) (x : Byte) (i : Nat) (h : i = a.length) :
    (a ++ x :: b)[i]? = some x := by
  subst h
  rw [List.getElem?_append_right (Nat.le_refl _)]
  simp

theorem encGroups_length_pos (lits rest : List Byte) : 1 ≤ (encGroups lits rest).length := by
  induction rest generalizing lits with
  | nil => simp [encGroups]
  | cons b rest ih =>
    simp only [encGroups]
    split
    · simp
    · split
      · simp
      · exact ih _

theorem codeOf_succ (n : Nat) : codeOf n + 1 = codeOf (n + 1) := by
  apply Fin.ext
  simp [codeOf, Fin.val_add]

theorem codeOf_eq_255 (n : Nat) (h : n ≤ 255) : codeOf n = 0xFF ↔ n = 255 := by
  constructor
  · intro h1
    have := congrArg Fin.val h1
    simp [codeOf] at this
    omega
  · intro h1; subst h1; rfl

theorem encGroups_length_ge (lits rest : List Byte) :
    lits.length + rest.length + 1 ≤ (encGroups lits rest).length := by
  induction rest generalizing lits with
  | nil => simp [encGroups]
  | cons b rest ih =>
    simp only [encGroups]
    split
    · have := ih []
      simp at this ⊢; omega
    · split
      · have := ih []
        simp at this ⊢; omega
      · have := ih (lits ++ [b])
        simp at this ⊢; omega

theorem encGroups_length_le (lits rest : List Byte) :
    (encGroups lits rest).length
      ≤ lits.length + rest.length + (lits.length + rest.length) / 254 + 1 := by
  induction rest generalizing lits with
  | nil => simp [encGroups]
  | cons b rest ih =>
    simp only [encGroups]
    split
    · have := ih []
      simp at this ⊢; omega
    · split
      · have := ih []
        simp at this ⊢; omega
      · have := ih (lits ++ [b])
        simp at this ⊢; omega

theorem encGroups_length_small (lits rest : List Byte) (h : lits.length + rest.length < 254) :
    (encGroups lits rest).length = lits.length + rest.length + 1 := by
  have h1 := encGroups_length_ge lits rest
  have h2 := encGroups_length_le lits rest
  omega

/-! ## `COBS::encode` computes `encGroups` -/

theorem encodeLoop_spec (buffer : List Byte) (size : Nat) (rest : List Byte) :
    ∀ (fuel : Nat) (pre post done lits mid tail : List Byte) (x : Byte) (s : COBS.EncodeState),
      buffer = pre ++ rest ++ post → size = pre.length + rest.length →
      rest.length ≤ fuel → lits.length ≤ 253 →
      (encGroups lits rest).length = 1 + lits.length + mid.length →
      s.read_index = pre.length → s.write_index = done.length + 1 + lits.length →
      s.code_index = done.length → s.code = codeOf (lits.length + 1) →
      s.encodedBuffer = done ++ x :: (lits ++ (mid ++ tail)) →
      (COBS.encodeLoop buffer size fuel s).bind COBS.encodeFinish
        = some (done.length + (encGroups lits rest).length,
            done ++ (encGroups lits rest ++ tail)) := by
  induction rest with
  | nil =>
    intro fuel pre post done lits mid tail x s hb hs _ _ hcap h1 h2 h3 h4 h5
    have h0 : ¬ (s.read_index < size) := by simp [hs, h1]
    have hmid : mid = [] := by
      simp [encGroups] at hcap
      exact List.eq_nil_of_length_eq_zero (by omega)
    subst hmid
    cases fuel <;>
      simp [COBS.encodeLoop, h0, COBS.encodeFinish, h3, h4, h5, h2, store_append_cons,
        encGroups] <;> omega
  | cons b rest ih =>
    intro fuel pre post done lits mid tail x s hb hs hf hl hcap h1 h2 h3 h4 h5
    obtain ⟨fuel, rfl⟩ : ∃ k, fuel = k + 1 := ⟨fuel - 1, by simp at hf; omega⟩
    have h0 : s.read_index < size := by simp [hs, h1]
    have hrd : buffer[s.read_index]? = some b := by
      rw [hb, List.append_assoc]; exact getElem?_at _ _ _ _ h1
    have hb2 : buffer = (pre ++ [b]) ++ rest ++ post := by simp [hb]
    have hs2 : size = (pre ++ [b]).length + rest.length := by simp [hs]; omega
    have hf2 : rest.length ≤ fuel := by simp at hf; omega
    have hpos := encGroups_length_pos [] rest
    rw [COBS.encodeLoop]
    simp only [h0, if_true, hrd]
    by_cases hz : b = 0
    · simp only [hz, if_true, h3, h5, store_append_cons]
      subst hz
      simp only [encGroups, if_true] at hcap ⊢
      obtain ⟨t, mid, rfl⟩ : ∃ t tl, mid = t :: tl := by
        cases mid with
        | nil => simp at hcap; omega
        | cons t tl => exact ⟨t, tl, rfl⟩
      refine Eq.trans (ih fuel (pre ++ [0]) post (done ++ codeOf (lits.length + 1) :: lits) []
        mid tail t _ hb2 hs2 hf2 (by simp) ?_ ?_ ?_ ?_ ?_ ?_) ?_
      · simp at hcap ⊢; omega
      · simp [h1]
      · simp [h2]; omega
      · simp [h2]; omega
      · rfl
      · simp [h4]
      · simp; omega
    · simp only [hz, if_false] at hcap ⊢
      have hc1 : s.code + 1 = codeOf (lits.length + 2) := by rw [h4, codeOf_succ]
      have hc2 : (s.code + 1 = 0xFF) ↔ lits.length + 2 = 255 := by
        rw [hc1]; exact codeOf_eq_255 _ (by omega)
      by_cases hfull : lits.length + 2 = 255
      · have hfull2 : s.code + 1 = 0xFF := hc2.mpr hfull
        simp only [encGroups, hz, hfull, if_true, if_false] at hcap ⊢
        obtain ⟨t, mid, rfl⟩ : ∃ t tl, mid = t :: tl := by
          cases mid with
          | nil => simp at hcap; omega
          | cons t tl => exact ⟨t, tl, rfl⟩
        obtain ⟨t2, mid, rfl⟩ : ∃ t tl, mid = t :: tl := by
          cases mid with
          | nil => simp at hcap; omega
          | cons t tl => exact ⟨t, tl, rfl⟩
        have hst1 : store s.encodedBuffer s.write_index b
            = some (done ++ x :: (lits ++ b :: t2 :: (mid ++ tail))) := by
          rw [h5, show done ++ x :: (lits ++ (t :: t2 :: mid ++ tail))
              = (done ++ x :: lits) ++ t :: (t2 :: (mid ++ tail)) by simp,
            store_at _ _ _ _ _ (by simp [h2]; omega)]
          simp
        have hst2 : store (done ++ x :: (lits ++ b :: t2 :: (mid ++ tail))) s.code_index
            0xFF = some (done ++ 0xFF :: (lits ++ b :: t2 :: (mid ++ tail))) := by
          rw [store_at _ _ _ _ _ h3]
        simp only [hst1, hfull2, if_true, hst2]
        refine Eq.trans (ih fuel (pre ++ [b]) post (done ++ 0xFF :: (lits ++ [b])) []
          mid tail t2 _ hb2 hs2 hf2 (by simp) ?_ ?_ ?_ ?_ ?_ ?_) ?_
        · simp at hcap ⊢; omega
        · simp [h1]
        · simp [h2]; omega
        · simp [h2]; omega
        · rfl
        · simp
        · simp; omega
      · have hfull2 : ¬ (s.code + 1 = 0xFF) := fun h => hfull (hc2.mp h)
        simp only [encGroups, hz, hfull, if_false] at hcap ⊢
        obtain ⟨t, mid, rfl⟩ : ∃ t tl, mid = t :: tl := by
          cases mid with
          | nil =>
            have := encGroups_length_pos (lits ++ [b]) rest
            simp at hcap
            have hh := encGroups_length_ge (lits ++ [b]) rest
            simp at hh
            omega
          | cons t tl => exact ⟨t, tl, rfl⟩
        have hst1 : store s.encodedBuffer s.write_index b
            = some (done ++ x :: (lits ++ b :: (mid ++ tail))) := by
          rw [h5, show done ++ x :: (lits ++ (t :: mid ++ tail))
              = (done ++ x :: lits) ++ t :: (mid ++ tail) by simp,
            store_at _ _ _ _ _ (by simp [h2]; omega)]
          simp
        simp only [hst1, hfull2, if_false]
        refine Eq.trans (ih fuel (pre ++ [b]) post done (lits ++ [b])
          mid tail x _ hb2 hs2 hf2 (by simp; omega) ?_ ?_ ?_ ?_ ?_ ?_) ?_
        · simp at hcap ⊢; omega
        · simp [h1]
        · simp [h2]; omega
        · simp [h3]
        · simp [hc1]
        · simp
        · rfl

theorem encode_eq (buffer E : List Byte) (size : Nat) (hsz : size ≤ buffer.length)
    (hcap : (encGroups [] (buffer.take size)).length ≤ E.length) :
    COBS.encode buffer size E
      = some ((encGroups [] (buffer.take size)).length,
          encGroups [] (buffer.take size) ++ E.drop (encGroups [] (buffer.take size)).length) := by
  have hpos := encGroups_length_pos [] (buffer.take size)
  obtain ⟨x, E1, rfl⟩ : ∃ x tl, E = x :: tl := by
    cases E with
    | nil => simp only [List.length_nil] at hcap; omega
    | cons x tl => exact ⟨x, tl, rfl⟩
  have hbind : COBS.encode buffer size (x :: E1)
      = (COBS.encodeLoop buffer size size
          { read_index := 0, write_index := 1, code_index := 0, code := 1,
            encodedBuffer := x :: E1 }).bind COBS.encodeFinish := by
    unfold COBS.encode
    cases COBS.encodeLoop buffer size size
      { read_index := 0, write_index := 1, code_index := 0, code := 1,
        encodedBuffer := x :: E1 } <;> rfl
  rw [hbind]
  obtain ⟨k, hk⟩ : ∃ k, (encGroups [] (buffer.take size)).length = k + 1 := ⟨(encGroups [] (buffer.take size)).length - 1, by omega⟩
  have hk1 : k ≤ E1.length := by simp [hk] at hcap; omega
  refine Eq.trans (encodeLoop_spec buffer size (buffer.take size) size [] (buffer.drop size) []
    [] (E1.take k) (E1.drop k) x _ ?_ ?_ ?_ ?_ ?_ ?_ ?_ ?_ ?_ ?_) ?_
  · simp
  · simp [hsz]
  · simp
  · simp
  · simp [hk]; omega
  · rfl
  · rfl
  · rfl
  · rfl
  · simp
  · simp [hk]

/-! ## `COBS::decode` computes `decGroups` -/

theorem decGroups_nil : decGroups [] = ([], true) := by
  rw [decGroups]

theorem decGroups_cons (c : Byte) (rest : List Byte) :
    decGroups (c :: rest)
      = if c.val > rest.length + 1 ∧ c ≠ 1 then ([], false)
        else
          (rest.take (c.val - 1)
              ++ ((if c ≠ 0xFF ∧ rest.drop (c.val - 1) ≠ [] then [0] else [])
                ++ (decGroups (rest.drop (c.val - 1))).1),
            (decGroups (rest.drop (c.val - 1))).2) := by
  rw [decGroups]

theorem decGroups_length_le (l : List Byte) : (decGroups l).1.length ≤ l.length := by
  generalize h : l.length = n
  induction n using Nat.strong_induction_on generalizing l with
  | _ n ih =>
    subst h
    cases l with
    | nil => simp [decGroups_nil]
    | cons c rest =>
      rw [decGroups_cons]
      split
      · simp
      · have hlen : (rest.drop (c.val - 1)).length < (c :: rest).length := by
          simp; omega
        have := ih _ hlen (rest.drop (c.val - 1)) rfl
        simp only [List.length_append, List.length_take, List.length_drop] at this ⊢
        split
        · rename_i hne
          have : (rest.drop (c.val - 1)).length ≠ 0 := by
            intro h0; exact hne.2 (List.eq_nil_of_length_eq_zero h0)
          simp at this ⊢
          omega
        · simp; omega

theorem decodeCopy_spec (enc : List Byte) (xs : List Byte) :
    ∀ (pre post dpre dmid dpost : List Byte) (s : COBS.DecodeState),
      enc = pre ++ xs ++ post → dmid.length = xs.length →
      s.read_index = pre.length → s.write_index = dpre.length →
      s.decodedBuffer = dpre ++ (dmid ++ dpost) →
      COBS.decodeCopy enc xs.length s
        = some { read_index := pre.length + xs.length
                 write_index := dpre.length + xs.length
                 decodedBuffer := dpre ++ (xs ++ dpost) } := by
  induction xs with
  | nil =>
    intro pre post dpre dmid dpost s _ hd h1 h2 h3
    have : dmid = [] := List.eq_nil_of_length_eq_zero (by simpa using hd)
    subst this
    cases s
    simp_all [COBS.decodeCopy]
  | cons x xs ih =>
    intro pre post dpre dmid dpost s he hd h1 h2 h3
    obtain ⟨y, dmid, rfl⟩ : ∃ y tl, dmid = y :: tl := by
      cases dmid with
      | nil => simp at hd
      | cons y tl => exact ⟨y, tl, rfl⟩
    have hrd : enc[s.read_index]? = some x := by
      rw [he, List.append_assoc]; exact getElem?_at _ _ _ _ h1
    have hst : store s.decodedBuffer s.write_index x = some (dpre ++ x :: (dmid ++ dpost)) := by
      rw [h3]; exact store_at _ _ _ _ _ h2
    simp only [List.length_cons, COBS.decodeCopy, hrd, hst]
    refine Eq.trans (ih (pre ++ [x]) post (dpre ++ [x]) dmid dpost _ ?_ ?_ ?_ ?_ ?_) ?_
    · simp [he]
    · simpa using hd
    · simp [h1]
    · simp [h2]
    · simp
    · simp; omega

theorem decodeLoop_spec (enc : List Byte) (size : Nat) :
    ∀ (fuel : Nat) (l pre post dpre dmid dpost : List Byte) (s : COBS.DecodeState),
      enc = pre ++ l ++ post → size = pre.length + l.length → l.length ≤ fuel →
      dmid.length = (decGroups l).1.length →
      s.read_index = pre.length → s.write_index = dpre.length →
      s.decodedBuffer = dpre ++ (dmid ++ dpost) →
      COBS.decodeLoop enc size fuel s
        = some (if (decGroups l).2 then dpre.length + (decGroups l).1.length else 0,
            dpre ++ ((decGroups l).1 ++ dpost)) := by
  intro fuel
  induction fuel with
  | zero =>
    intro l pre post dpre dmid dpost s he hs hf hd h1 h2 h3
    have hl : l = [] := List.eq_nil_of_length_eq_zero (by omega)
    subst hl
    have hdm : dmid = [] := List.eq_nil_of_length_eq_zero (by simpa [decGroups_nil] using hd)
    subst hdm
    have h0 : ¬ (s.read_index < size) := by simp [hs, h1]
    simp [COBS.decodeLoop, h0, decGroups_nil, h2, h3]
  | succ k ih =>
    intro l pre post dpre dmid dpost s he hs hf hd h1 h2 h3
    cases l with
    | nil =>
      have hdm : dmid = [] := List.eq_nil_of_length_eq_zero (by simpa [decGroups_nil] using hd)
      subst hdm
      have h0 : ¬ (s.read_index < size) := by simp [hs, h1]
      simp [COBS.decodeLoop, h0, decGroups_nil, h2, h3]
    | cons c rest =>
      have h0 : s.read_index < size := by simp [hs, h1]
      have hrd : enc[s.read_index]? = some c := by
        rw [he, List.append_assoc]; exact getElem?_at _ _ _ _ h1
      have hc1 : c = 1 → c.val = 1 := by intro h; subst h; rfl
      rw [COBS.decodeLoop]
      simp only [h0, if_true, hrd]
      by_cases hm : c.val > rest.length + 1 ∧ c ≠ 1
      · have hm2 : s.read_index + c.val > size ∧ c ≠ 1 := by
          refine ⟨?_, hm.2⟩
          have := hm.1
          simp [hs, h1]; omega
        have hdg : decGroups (c :: rest) = ([], false) := by
          rw [decGroups_cons, if_pos hm]
        rw [hdg] at hd ⊢
        have hdm : dmid = [] := List.eq_nil_of_length_eq_zero (by simpa using hd)
        subst hdm
        simp [hm2, h3]
      · have hm2 : ¬ (s.read_index + c.val > size ∧ c ≠ 1) := by
          intro h
          apply hm
          refine ⟨?_, h.2⟩
          have := h.1
          simp [hs, h1] at this; omega
        have hn : c.val - 1 ≤ rest.length := by
          by_cases h : c = 1
          · have := hc1 h; omega
          · have : ¬ (c.val > rest.length + 1) := fun h2 => hm ⟨h2, h⟩
            omega
        obtain ⟨xs, hxs⟩ : ∃ xs, xs = rest.take (c.val - 1) := ⟨_, rfl⟩
        obtain ⟨more, hmore⟩ : ∃ more, more = rest.drop (c.val - 1) := ⟨_, rfl⟩
        have hrest : rest = xs ++ more := by rw [hxs, hmore, List.take_append_drop]
        have hxl : xs.length = c.val - 1 := by rw [hxs, List.length_take]; omega
        have hdg : decGroups (c :: rest)
            = (xs ++ ((if c ≠ 0xFF ∧ more ≠ [] then [0] else []) ++ (decGroups more).1),
                (decGroups more).2) := by
          rw [decGroups_cons, if_neg hm, ← hxs, ← hmore]
        rw [hdg] at hd ⊢
        have hml : more.length ≤ k := by
          have : (xs ++ more).length ≤ k := by rw [← hrest]; simp at hf; omega
          simp at this; omega
        obtain ⟨dm1, dm2, hdm, hdm1⟩ : ∃ dm1 dm2, dmid = dm1 ++ dm2 ∧ dm1.length = xs.length := by
          refine ⟨dmid.take xs.length, dmid.drop xs.length, (List.take_append_drop _ _).symm, ?_⟩
          rw [List.length_take]
          simp at hd; omega
        have hcopy : COBS.decodeCopy enc (c.val - 1)
              { s with read_index := s.read_index + 1 }
            = some { read_index := (pre ++ [c]).length + xs.length
                     write_index := dpre.length + xs.length
                     decodedBuffer := dpre ++ (xs ++ (dm2 ++ dpost)) } := by
          have := decodeCopy_spec enc xs (pre ++ [c]) (more ++ post) dpre dm1 (dm2 ++ dpost)
            { s with read_index := s.read_index + 1 }
            (by rw [he, hrest]; simp) hdm1 (by simp [h1]) h2 (by rw [h3, hdm]; simp)
          rw [hxl] at this
          rw [this, hxl]
        simp only [hm2, if_false, hcopy]
        have hcond : ((pre ++ [c]).length + xs.length ≠ size) ↔ more ≠ [] := by
          rw [hs, hrest]
          constructor
          · intro h hnil; apply h; subst hnil; simp; omega
          · intro h heq
            apply h
            apply List.eq_nil_of_length_eq_zero
            simp at heq; omega
        by_cases hz : c ≠ 0xFF ∧ more ≠ []
        · have hz2 : c ≠ 0xFF ∧ (pre ++ [c]).length + xs.length ≠ size := ⟨hz.1, hcond.mpr hz.2⟩
          simp only [hz, hz2, and_self, if_true, ne_eq, not_false_eq_true] at hd ⊢
          obtain ⟨y, dm3, rfl⟩ : ∃ y tl, dm2 = y :: tl := by
            cases dm2 with
            | nil => simp [hdm] at hd; omega
            | cons y tl => exact ⟨y, tl, rfl⟩
          have hst : store (dpre ++ (xs ++ (y :: dm3 ++ dpost))) (dpre.length + xs.length) 0
              = some ((dpre ++ xs) ++ 0 :: (dm3 ++ dpost)) := by
            rw [show dpre ++ (xs ++ (y :: dm3 ++ dpost)) = (dpre ++ xs) ++ y :: (dm3 ++ dpost)
              by simp]
            exact store_at _ _ _ _ _ (by simp)
          simp only [hst]
          refine Eq.trans (ih more (pre ++ [c] ++ xs) post (dpre ++ xs ++ [0]) dm3 dpost _
            ?_ ?_ hml ?_ ?_ ?_ ?_) ?_
          · rw [he, hrest]; simp
          · rw [hs, hrest]; simp; omega
          · simp [hdm] at hd; omega
          · simp; omega
          · simp; omega
          · simp
          · simp
            split <;> first | rfl | omega
        · have hz2 : ¬ (c ≠ 0xFF ∧ (pre ++ [c]).length + xs.length ≠ size) :=
            fun h => hz ⟨h.1, hcond.mp h.2⟩
          simp only [hz, hz2, if_false] at hd ⊢
          refine Eq.trans (ih more (pre ++ [c] ++ xs) post (dpre ++ xs) dm2 dpost _
            ?_ ?_ hml ?_ ?_ ?_ ?_) ?_
          · rw [he, hrest]; simp
          · rw [hs, hrest]; simp; omega
          · simp [hdm] at hd; omega
          · simp; omega
          · simp
          · simp
          · simp
            split <;> first | rfl | omega

theorem decode_eq (enc D : List Byte) (size : Nat) (hsz : size ≤ enc.length)
    (hcap : (decGroups (enc.take size)).1.length ≤ D.length) :
    COBS.decode enc size D
      = some (if (decGroups (enc.take size)).2 then (decGroups (enc.take size)).1.length else 0,
          (decGroups (enc.take size)).1 ++ D.drop (decGroups (enc.take size)).1.length) := by
  unfold COBS.decode
  by_cases h0 : size = 0
  · subst h0
    simp [decGroups_nil]
  · rw [if_neg h0]
    refine Eq.trans (decodeLoop_spec enc size size (enc.take size) [] (enc.drop size) []
      (D.take (decGroups (enc.take size)).1.length)
      (D.drop (decGroups (enc.take size)).1.length) _ ?_ ?_ ?_ ?_ ?_ ?_ ?_) ?_
    · simp
    · simp [hsz]
    · simp
    · simp [hcap]
    · rfl
    · rfl
    · simp
    · simp

theorem decode_take (enc D : List Byte) (size : Nat) (hsz : size ≤ enc.length)
    (hcap : size ≤ D.length) :
    ∃ n D1, COBS.decode enc size D = some (n, D1) ∧ D1.take n = decodeList (enc.take size)
      ∧ n = (decodeList (enc.take size)).length ∧ D1.length = D.length := by
  have hle := decGroups_length_le (enc.take size)
  have hle2 : (decGroups (enc.take size)).1.length ≤ D.length := by
    simp at hle; omega
  refine ⟨_, _, decode_eq enc D size hsz hle2, ?_, ?_, ?_⟩
  · unfold decodeList
    split <;> simp
  · unfold decodeList
    split <;> simp
  · simp; omega

/-! ## Round trip on lists -/

theorem codeOf_val (n : Nat) (h : n < 256) : (codeOf n).val = n := by
  simp [codeOf]; omega

theorem decGroups_encGroups (rest : List Byte) :
    ∀ lits : List Byte, lits.length ≤ 253 →
      decGroups (encGroups lits rest) = (lits ++ rest, true) := by
  induction rest with
  | nil =>
    intro lits hl
    have hv := codeOf_val (lits.length + 1) (by omega)
    simp only [encGroups]
    rw [decGroups_cons, hv]
    simp [decGroups_nil]
  | cons b rest ih =>
    intro lits hl
    have hv := codeOf_val (lits.length + 1) (by omega)
    have hne : codeOf (lits.length + 1) ≠ 0xFF := by
      intro h
      have := (codeOf_eq_255 _ (by omega)).mp h
      omega
    have hpos := encGroups_length_pos [] rest
    have hnil : encGroups [] rest ≠ [] := by
      intro h; rw [h] at hpos; simp at hpos
    simp only [encGroups]
    split
    · rename_i hz
      subst hz
      rw [List.cons_append, decGroups_cons, hv]
      have hnm : ¬ (lits.length + 1 > (lits ++ encGroups [] rest).length + 1
          ∧ codeOf (lits.length + 1) ≠ 1) := by
        intro h
        have := h.1
        simp at this
      rw [if_neg hnm]
      simp [ih [] (by simp), hne, hnil]
    · split
      · rename_i hfull
        rw [List.cons_append, decGroups_cons]
        have h255 : ((0xFF : Byte)).val = 255 := rfl
        rw [h255]
        have hnm : ¬ (255 > ((lits ++ [b]) ++ encGroups [] rest).length + 1
            ∧ (0xFF : Byte) ≠ 1) := by
          intro h
          have := h.1
          simp at this
          omega
        rw [if_neg hnm]
        have e1 : List.take (255 - 1) ((lits ++ [b]) ++ encGroups [] rest) = lits ++ [b] := by
          rw [List.take_append_of_le_length (by simp; omega)]
          exact List.take_of_length_le (by simp; omega)
        have e2 : List.drop (255 - 1) ((lits ++ [b]) ++ encGroups [] rest)
            = encGroups [] rest := by
          rw [List.drop_append_eq_append_drop]
          have : 255 - 1 - (lits ++ [b]).length = 0 := by simp; omega
          rw [this, List.drop_of_length_le (by simp; omega)]
          simp
        rw [e1, e2]
        simp [ih [] (by simp)]
      · rename_i hfull
        have := ih (lits ++ [b]) (by simp; omega)
        simpa using this

theorem decodeList_encGroups (M : List Byte) : decodeList (encGroups [] M) = M := by
  unfold decodeList
  rw [decGroups_encGroups M [] (by simp)]
  simp

/-! ## Bytes of an encoding -/

theorem encGroups_ne_zero (rest : List Byte) :
    ∀ lits : List Byte, lits.length ≤ 253 → (∀ b ∈ lits, b ≠ 0) →
      ∀ b ∈ encGroups lits rest, b ≠ 0 := by
  induction rest with
  | nil =>
    intro lits hl hlits b hb
    simp only [encGroups, List.mem_cons] at hb
    rcases hb with rfl | hb
    · intro h
      have := congrArg Fin.val h
      rw [codeOf_val _ (by omega)] at this
      simp at this
    · exact hlits b hb
  | cons a rest ih =>
    intro lits hl hlits b hb
    have hcode : codeOf (lits.length + 1) ≠ 0 := by
      intro h
      have := congrArg Fin.val h
      rw [codeOf_val _ (by omega)] at this
      simp at this
    simp only [encGroups] at hb
    split at hb
    · simp only [List.cons_append, List.mem_cons, List.mem_append] at hb
      rcases hb with rfl | hb | hb
      · exact hcode
      · exact hlits b hb
      · exact ih [] (by simp) (by simp) b hb
    · rename_i hz
      split at hb
      · simp only [List.cons_append, List.mem_cons, List.mem_append, List.mem_singleton,
          List.not_mem_nil, or_false] at hb
        rcases hb with rfl | (hb | rfl) | hb
        · decide
        · exact hlits b hb
        · exact hz
        · exact ih [] (by simp) (by simp) b hb
      · refine ih (lits ++ [a]) (by simp; omega) ?_ b hb
        intro c hc
        simp only [List.mem_append, List.mem_singleton] at hc
        rcases hc with hc | rfl
        · exact hlits c hc
        · exact hz

/-! ## Further facts on the list encoder -/

theorem encGroups_append_zero (A B : List Byte) :
    ∀ lits : List Byte,
      encGroups lits (A ++ 0 :: B) = encGroups lits A ++ encGroups [] B := by
  induction A with
  | nil =>
    intro lits
    simp [encGroups]
  | cons a A ih =>
    intro lits
    show encGroups lits (a :: (A ++ 0 :: B)) = encGroups lits (a :: A) ++ encGroups [] B
    by_cases hz : a = 0
    · simp only [encGroups, hz, if_true]
      rw [ih []]; simp
    · by_cases hfull : lits.length + 2 = 255
      · simp only [encGroups, hz, hfull, if_true, if_false]
        rw [ih []]; simp
      · simp only [encGroups, hz, hfull, if_false]
        exact ih _

theorem encGroups_length_nonzero (rest : List Byte) :
    ∀ lits : List Byte, lits.length ≤ 253 → (∀ b ∈ rest, b ≠ 0) →
      (encGroups lits rest).length
        = lits.length + rest.length + (lits.length + rest.length) / 254 + 1 := by
  induction rest with
  | nil =>
    intro lits hl _
    simp [encGroups]
    omega
  | cons b rest ih =>
    intro lits hl hnz
    have hb : b ≠ 0 := hnz b (by simp)
    have hrest : ∀ c ∈ rest, c ≠ 0 := fun c hc => hnz c (by simp [hc])
    simp only [encGroups, hb, if_false]
    split
    · have := ih [] (by simp) hrest
      simp at this ⊢
      omega
    · have := ih (lits ++ [b]) (by simp; omega) hrest
      simp at this ⊢
      omega

theorem encGroups_full_group (rest : List Byte) :
    ∀ lits : List Byte, lits.length ≤ 253 → lits.length + rest.length = 254 →
      (∀ b ∈ rest, b ≠ 0) →
      encGroups lits rest = 0xFF :: (lits ++ rest) ++ [1] := by
  induction rest with
  | nil =>
    intro lits hl hlen _
    simp at hlen
    omega
  | cons b rest ih =>
    intro lits hl hlen hnz
    have hb : b ≠ 0 := hnz b (by simp)
    have hrest : ∀ c ∈ rest, c ≠ 0 := fun c hc => hnz c (by simp [hc])
    simp only [encGroups, hb, if_false]
    split
    · have hr : rest = [] := List.eq_nil_of_length_eq_zero (by simp at hlen; omega)
      subst hr
      simp [encGroups]
      rfl
    · have := ih (lits ++ [b]) (by simp; omega) (by simp at hlen ⊢; omega) hrest
      simpa using this

/-! ## Decoding a truncated encoding -/

theorem decGroups_take_group (c : Byte) (g more : List Byte) (j : Nat)
    (hc : c.val = g.length + 1) :
    (j < g.length → (decGroups ((c :: (g ++ more)).take (j + 1))).2 = false)
    ∧ (g.length ≤ j →
        decGroups ((c :: (g ++ more)).take (j + 1))
          = (g ++ ((if c ≠ 0xFF ∧ more.take (j - g.length) ≠ [] then [0] else [])
                ++ (decGroups (more.take (j - g.length))).1),
              (decGroups (more.take (j - g.length))).2)) := by
  rw [List.take_succ_cons, decGroups_cons]
  constructor
  · intro hj
    have hne : c ≠ 1 := by
      intro h
      have : c.val = 1 := by rw [h]; rfl
      omega
    have hm : c.val > (List.take j (g ++ more)).length + 1 ∧ c ≠ 1 := by
      refine ⟨?_, hne⟩
      rw [List.length_take, hc]
      omega
    rw [if_pos hm]
  · intro hj
    have hm : ¬ (c.val > (List.take j (g ++ more)).length + 1 ∧ c ≠ 1) := by
      intro h
      have := h.1
      rw [List.length_take, hc, List.length_append] at this
      omega
    rw [if_neg hm]
    have e1 : List.take (c.val - 1) (List.take j (g ++ more)) = g := by
      rw [List.take_take, hc]
      have : min (g.length + 1 - 1) j = g.length := by omega
      rw [this, List.take_left]
    have e2 : List.drop (c.val - 1) (List.take j (g ++ more)) = more.take (j - g.length) := by
      rw [List.drop_take, hc]
      have : g.length + 1 - 1 = g.length := by omega
      rw [this, List.drop_left]
    rw [e1, e2]

theorem decGroups_take_encGroups (rest : List Byte) :
    ∀ (lits : List Byte) (k : Nat), lits.length ≤ 253 →
      (decGroups ((encGroups lits rest).take k)).2 = true →
      ∃ t, (decGroups ((encGroups lits rest).take k)).1 ++ t = lits ++ rest := by
  induction rest with
  | nil =>
    intro lits k hl hok
    have hv := codeOf_val (lits.length + 1) (by omega)
    cases k with
    | zero => exact ⟨lits, by simp [decGroups_nil]⟩
    | succ j =>
      have hg := decGroups_take_group (codeOf (lits.length + 1)) lits [] j hv
      simp only [encGroups] at hok ⊢
      rw [show lits = lits ++ [] by simp] at hok ⊢
      by_cases hj : j < lits.length
      · have := hg.1 hj
        simp only [List.append_nil] at this hok
        rw [this] at hok
        exact absurd hok (by simp)
      · have := hg.2 (by omega)
        simp only [List.append_nil] at this ⊢
        rw [this]
        exact ⟨[], by simp [decGroups_nil]⟩
  | cons b rest ih =>
    intro lits k hl hok
    have hv := codeOf_val (lits.length + 1) (by omega)
    have hne : codeOf (lits.length + 1) ≠ 0xFF := by
      intro h
      have := (codeOf_eq_255 _ (by omega)).mp h
      omega
    by_cases hz : b = 0
    · subst hz
      simp only [encGroups, if_true, List.cons_append] at hok ⊢
      cases k with
      | zero => exact ⟨lits ++ 0 :: rest, by simp [decGroups_nil]⟩
      | succ j =>
        have hg := decGroups_take_group (codeOf (lits.length + 1)) lits (encGroups [] rest) j hv
        by_cases hj : j < lits.length
        · rw [hg.1 hj] at hok
          exact absurd hok (by simp)
        · have e := hg.2 (by omega)
          rw [e] at hok ⊢
          simp only at hok ⊢
          by_cases hnil : List.take (j - lits.length) (encGroups [] rest) = []
          · refine ⟨0 :: rest, ?_⟩
            simp [hnil, decGroups_nil]
          · obtain ⟨t, ht⟩ := ih [] (j - lits.length) (by simp) hok
            refine ⟨t, ?_⟩
            simp only [hne, hnil, ne_eq, not_false_eq_true, and_self, if_true]
            simp only [List.nil_append] at ht
            simp [List.append_assoc, ht]
    · by_cases hfull : lits.length + 2 = 255
      · simp only [encGroups, hz, hfull, if_true, if_false, List.cons_append] at hok ⊢
        cases k with
        | zero => exact ⟨lits ++ b :: rest, by simp [decGroups_nil]⟩
        | succ j =>
          have hg := decGroups_take_group 0xFF (lits ++ [b]) (encGroups [] rest) j
            (by simp; omega)
          by_cases hj : j < (lits ++ [b]).length
          · rw [hg.1 hj] at hok
            exact absurd hok (by simp)
          · have e := hg.2 (by omega)
            rw [e] at hok ⊢
            simp only at hok ⊢
            obtain ⟨t, ht⟩ := ih [] (j - (lits ++ [b]).length) (by simp) hok
            refine ⟨t, ?_⟩
            simp only [List.nil_append, List.length_append, List.length_singleton] at ht
            simp [List.append_assoc, ht]
      · simp only [encGroups, hz, hfull, if_false] at hok ⊢
        obtain ⟨t, ht⟩ := ih (lits ++ [b]) k (by simp; omega) hok
        exact ⟨t, by simpa using ht⟩

theorem decodeList_take_encGroups (M : List Byte) (k : Nat) :
    ∃ t, decodeList ((encGroups [] M).take k) ++ t = M := by
  unfold decodeList
  split
  · rename_i hok
    obtain ⟨t, ht⟩ := decGroups_take_encGroups M [] k (by simp) hok
    exact ⟨t, by simpa using ht⟩
  · exact ⟨M, rfl⟩

/-! ## The packet assembler -/

namespace PackedSerial

variable {BufferSize : Nat}

theorem take_set_succ (l : List Byte) (i : Nat) (d : Byte) (h : i < l.length) :
    (l.set i d).take (i + 1) = l.take i ++ [d] := by
  induction l generalizing i with
  | nil => simp at h
  | cons x xs ih =>
    cases i with
    | zero => simp
    | succ j =>
      simp only [List.length_cons] at h
      simp [ih j (by omega)]

theorem WF_construct (storage : Fin BufferSize → Byte) : WF (construct BufferSize storage) := by
  simp [WF, construct]

theorem WF_setStream (s : PackedSerial BufferSize) (st : Nat) (h : WF s) :
    WF (s.setStream st) := h

theorem WF_setPacketHandler (s : PackedSerial BufferSize) (f : Option Nat) (h : WF s) :
    WF (s.setPacketHandler f) := h

theorem receive_delim_handler (s : PackedSerial BufferSize) (f : Nat)
    (hf : s._onPacketFunction = some f)
    (hidx : s._receiveBufferIndex ≤ s._receiveBuffer.length) :
    receive s 0 = some ({ s with _receiveBufferIndex := 0 },
      [⟨f, decodeList (s._receiveBuffer.take s._receiveBufferIndex)⟩]) := by
  obtain ⟨n, D1, h1, h2, _, _⟩ := decode_take s._receiveBuffer
    (List.replicate s._receiveBufferIndex 0) s._receiveBufferIndex hidx (by simp)
  simp [receive, hf, h1, h2]

theorem receive_delim_none (s : PackedSerial BufferSize) (hf : s._onPacketFunction = none) :
    receive s 0 = some ({ s with _receiveBufferIndex := 0 }, []) := by
  simp [receive, hf]

theorem receive_data_store (s : PackedSerial BufferSize) (d : Byte) (hd : d ≠ 0)
    (hlen : s._receiveBuffer.length = BufferSize) (hidx : s._receiveBufferIndex + 1 < BufferSize) :
    receive s d = some ({ s with _receiveBuffer := s._receiveBuffer.set s._receiveBufferIndex d
                                 _receiveBufferIndex := s._receiveBufferIndex + 1 }, []) := by
  have : s._receiveBufferIndex < s._receiveBuffer.length := by omega
  simp [receive, hd, hidx, store, this]

theorem receive_data_drop (s : PackedSerial BufferSize) (d : Byte) (hd : d ≠ 0)
    (hidx : ¬ (s._receiveBufferIndex + 1 < BufferSize)) :
    receive s d = some (s, []) := by
  simp [receive, hd, hidx]

theorem receive_sim (s t : PackedSerial BufferSize) (d : Byte) (h : Sim s t) :
    ∃ s1 t1 calls, receive s d = some (s1, calls) ∧ receive t d = some (t1, calls)
      ∧ Sim s1 t1 ∧ s1._stream = s._stream ∧ t1._stream = t._stream
      ∧ s1._onPacketFunction = s._onPacketFunction := by
  obtain ⟨⟨hs1, hs2⟩, ⟨ht1, ht2⟩, hidx, htake, hfun, hstr⟩ := h
  by_cases hd : d = 0
  · subst hd
    cases hf : s._onPacketFunction with
    | none =>
      refine ⟨_, _, _, receive_delim_none s hf, receive_delim_none t (by rw [← hfun]; exact hf), ?_, rfl, rfl, hf⟩
      exact ⟨⟨hs1, Nat.zero_le _⟩, ⟨ht1, Nat.zero_le _⟩, rfl, by simp, hfun, hstr⟩
    | some f =>
      have e1 := receive_delim_handler s f hf (by omega)
      have e2 := receive_delim_handler t f (by rw [← hfun]; exact hf) (by omega)
      rw [← htake] at e2
      refine ⟨_, _, _, e1, e2, ?_, rfl, rfl, hf⟩
      exact ⟨⟨hs1, Nat.zero_le _⟩, ⟨ht1, Nat.zero_le _⟩, rfl, by simp, hfun, hstr⟩
  · by_cases hlt : s._receiveBufferIndex + 1 < BufferSize
    · have e1 := receive_data_store s d hd hs1 hlt
      have e2 := receive_data_store t d hd ht1 (hidx ▸ hlt)
      refine ⟨_, _, _, e1, e2, ?_, rfl, rfl, rfl⟩
      refine ⟨⟨by simp [hs1], by simp; omega⟩, ⟨by simp [ht1], by simp; omega⟩, by simp [hidx],
        ?_, hfun, hstr⟩
      simp only
      rw [take_set_succ _ _ _ (by omega), take_set_succ _ _ _ (by omega), htake]
    · have e1 := receive_data_drop s d hd hlt
      have e2 := receive_data_drop t d hd (hidx ▸ hlt)
      exact ⟨_, _, _, e1, e2, ⟨⟨hs1, hs2⟩, ⟨ht1, ht2⟩, hidx, htake, hfun, hstr⟩, rfl, rfl, rfl⟩

theorem updateLoop_sim (bs : List Byte) :
    ∀ s t : PackedSerial BufferSize, Sim s t →
      ∃ s1 t1 calls, updateLoop bs s = some (s1, calls) ∧ updateLoop bs t = some (t1, calls)
        ∧ Sim s1 t1 ∧ s1._stream = s._stream ∧ t1._stream = t._stream
        ∧ s1._onPacketFunction = s._onPacketFunction := by
  induction bs with
  | nil =>
    intro s t h
    exact ⟨s, t, [], rfl, rfl, h, rfl, rfl, rfl⟩
  | cons d bs ih =>
    intro s t h
    obtain ⟨s1, t1, c1, e1, e2, h1, hs1, ht1, hf1⟩ := receive_sim s t d h
    obtain ⟨s2, t2, c2, e3, e4, h2, hs2, ht2, hf2⟩ := ih s1 t1 h1
    refine ⟨s2, t2, c1 ++ c2, ?_, ?_, h2, hs2.trans hs1, ht2.trans ht1, hf2.trans hf1⟩
    · simp [updateLoop, e1, e3]
    · simp [updateLoop, e2, e4]

theorem Sim_refl (s : PackedSerial BufferSize) (h : WF s) : Sim s s :=
  ⟨h, h, rfl, rfl, rfl, Iff.rfl⟩

theorem updateLoop_append (A B : List Byte) :
    ∀ s : PackedSerial BufferSize,
      updateLoop (A ++ B) s
        = match updateLoop A s with
          | none => none
          | some (s1, calls1) =>
            match updateLoop B s1 with
            | none => none
            | some (s2, calls2) => some (s2, calls1 ++ calls2) := by
  induction A with
  | nil =>
    intro s
    simp only [List.nil_append, updateLoop]
    cases updateLoop B s with
    | none => rfl
    | some r => simp
  | cons d A ih =>
    intro s
    show updateLoop (d :: (A ++ B)) s = _
    cases h1 : receive s d with
    | none => simp [updateLoop, h1]
    | some r =>
      obtain ⟨s1, c1⟩ := r
      cases h2 : updateLoop A s1 with
      | none => simp [updateLoop, h1, h2, ih]
      | some r2 =>
        obtain ⟨s2, c2⟩ := r2
        cases h3 : updateLoop B s2 with
        | none => simp [updateLoop, h1, h2, h3, ih]
        | some r3 => simp [updateLoop, h1, h2, h3, ih]

theorem receive_stream (s s1 : PackedSerial BufferSize) (d : Byte) (calls : List Invocation)
    (h : receive s d = some (s1, calls)) :
    s1._stream = s._stream ∧ s1._onPacketFunction = s._onPacketFunction := by
  unfold receive at h
  split at h
  · split at h
    · split at h
      · exact absurd h (by simp)
      · simp only [Option.some.injEq, Prod.mk.injEq] at h
        obtain ⟨rfl, _⟩ := h
        exact ⟨rfl, rfl⟩
    · simp only [Option.some.injEq, Prod.mk.injEq] at h
      obtain ⟨rfl, _⟩ := h
      exact ⟨rfl, rfl⟩
  · split at h
    · split at h
      · exact absurd h (by simp)
      · simp only [Option.some.injEq, Prod.mk.injEq] at h
        obtain ⟨rfl, _⟩ := h
        exact ⟨rfl, rfl⟩
    · simp only [Option.some.injEq, Prod.mk.injEq] at h
      obtain ⟨rfl, _⟩ := h
      exact ⟨rfl, rfl⟩

theorem updateLoop_stream (bs : List Byte) :
    ∀ (s s1 : PackedSerial BufferSize) (calls : List Invocation),
      updateLoop bs s = some (s1, calls) →
      s1._stream = s._stream ∧ s1._onPacketFunction = s._onPacketFunction := by
  induction bs with
  | nil =>
    intro s s1 calls h
    simp only [updateLoop, Option.some.injEq, Prod.mk.injEq] at h
    obtain ⟨rfl, _⟩ := h
    exact ⟨rfl, rfl⟩
  | cons d bs ih =>
    intro s s1 calls h
    simp only [updateLoop] at h
    cases h1 : receive s d with
    | none => simp [h1] at h
    | some r =>
      obtain ⟨t, c1⟩ := r
      cases h2 : updateLoop bs t with
      | none => simp [h1, h2] at h
      | some r2 =>
        obtain ⟨t2, c2⟩ := r2
        simp only [h1, h2, Option.some.injEq, Prod.mk.injEq] at h
        obtain ⟨rfl, _⟩ := h
        have a := receive_stream s t d c1 h1
        have b := ih t t2 c2 h2
        exact ⟨b.1.trans a.1, b.2.trans a.2⟩

theorem update_stream (bs : List Byte) (s s1 : PackedSerial BufferSize)
    (calls : List Invocation) (h : update s bs = some (s1, calls)) :
    s1._stream = s._stream ∧ s1._onPacketFunction = s._onPacketFunction := by
  unfold update at h
  split at h
  · simp only [Option.some.injEq, Prod.mk.injEq] at h
    obtain ⟨rfl, _⟩ := h
    exact ⟨rfl, rfl⟩
  · exact updateLoop_stream bs s s1 calls h

theorem update_append (A B : List Byte) (s : PackedSerial BufferSize) :
    update s (A ++ B)
      = match update s A with
        | none => none
        | some (s1, calls1) =>
          match update s1 B with
          | none => none
          | some (s2, calls2) => some (s2, calls1 ++ calls2) := by
  by_cases hs : s._stream = none
  · simp [update, hs]
  · cases h1 : updateLoop A s with
    | none => simp [update, hs, updateLoop_append, h1]
    | some r =>
      obtain ⟨s1, c1⟩ := r
      have hs1 : ¬ (s1._stream = none) := by
        rw [(updateLoop_stream A s s1 c1 h1).1]; exact hs
      simp [update, hs, hs1, updateLoop_append, h1]

theorem updateCalls_flatten (chunks : List (List Byte)) :
    ∀ s : PackedSerial BufferSize, updateCalls chunks s = update s chunks.flatten := by
  induction chunks with
  | nil =>
    intro s
    by_cases hs : s._stream = none <;> simp [updateCalls, update, hs, updateLoop]
  | cons c chunks ih =>
    intro s
    rw [List.flatten_cons, update_append]
    simp only [updateCalls]
    cases update s c with
    | none => rfl
    | some r =>
      obtain ⟨s1, c1⟩ := r
      simp only [ih s1]

theorem updateLoop_total (bs : List Byte) (s : PackedSerial BufferSize) (h : WF s) :
    ∃ s1 calls, updateLoop bs s = some (s1, calls) ∧ WF s1 := by
  obtain ⟨s1, _, calls, e1, _, hsim, _⟩ := updateLoop_sim bs s s (Sim_refl s h)
  exact ⟨s1, calls, e1, hsim.1⟩

theorem update_total (bs : List Byte) (s : PackedSerial BufferSize) (h : WF s) :
    ∃ s1 calls, update s bs = some (s1, calls) ∧ WF s1 := by
  unfold update
  split
  · exact ⟨s, [], rfl, h⟩
  · exact updateLoop_total bs s h

theorem updateLoop_nonzero (bs : List Byte) :
    ∀ s : PackedSerial BufferSize, WF s → (∀ b ∈ bs, b ≠ 0) →
      ∃ s1, updateLoop bs s = some (s1, []) ∧ WF s1
        ∧ s1._receiveBufferIndex = min (s._receiveBufferIndex + bs.length) (BufferSize - 1)
        ∧ s1._receiveBuffer.take s1._receiveBufferIndex
            = s._receiveBuffer.take s._receiveBufferIndex
              ++ bs.take (BufferSize - 1 - s._receiveBufferIndex)
        ∧ s1._stream = s._stream ∧ s1._onPacketFunction = s._onPacketFunction := by
  induction bs with
  | nil =>
    intro s h _
    refine ⟨s, rfl, h, ?_, by simp, rfl, rfl⟩
    have := h.2
    simp; omega
  | cons d bs ih =>
    intro s h hnz
    have hd : d ≠ 0 := hnz d (by simp)
    have hbs : ∀ b ∈ bs, b ≠ 0 := fun b hb => hnz b (by simp [hb])
    by_cases hlt : s._receiveBufferIndex + 1 < BufferSize
    · have e1 := receive_data_store s d hd h.1 hlt
      have hwf1 : WF ({ s with _receiveBuffer := s._receiveBuffer.set s._receiveBufferIndex d
                               _receiveBufferIndex := s._receiveBufferIndex + 1 } :
          PackedSerial BufferSize) := ⟨by simp [h.1], by simp; omega⟩
      obtain ⟨s2, e2, hwf2, hi2, ht2, hs2, hf2⟩ := ih _ hwf1 hbs
      refine ⟨s2, by simp [updateLoop, e1, e2], hwf2, ?_, ?_, hs2, hf2⟩
      · rw [hi2]; simp; omega
      · rw [ht2]
        simp only
        rw [take_set_succ _ _ _ (by have := h.1; omega)]
        obtain ⟨k, hk⟩ : ∃ k, BufferSize - 1 - s._receiveBufferIndex = k + 1 :=
          ⟨BufferSize - 1 - s._receiveBufferIndex - 1, by omega⟩
        have hk2 : BufferSize - 1 - (s._receiveBufferIndex + 1) = k := by omega
        rw [hk, hk2]
        simp
    · have e1 := receive_data_drop s d hd hlt
      obtain ⟨s2, e2, hwf2, hi2, ht2, hs2, hf2⟩ := ih s h hbs
      have hidx := h.2
      refine ⟨s2, by simp [updateLoop, e1, e2], hwf2, ?_, ?_, hs2, hf2⟩
      · rw [hi2]; simp; omega
      · rw [ht2]
        have hk : BufferSize - 1 - s._receiveBufferIndex = 0 := by omega
        rw [hk]
        simp

theorem updateLoop_frame (bs : List Byte) (s : PackedSerial BufferSize) (f : Nat) (h : WF s)
    (hidx : s._receiveBufferIndex = 0) (hf : s._onPacketFunction = some f)
    (hnz : ∀ b ∈ bs, b ≠ 0) :
    ∃ s1, updateLoop (bs ++ [0]) s
        = some (s1, [⟨f, decodeList (bs.take (BufferSize - 1))⟩])
      ∧ WF s1 ∧ s1._receiveBufferIndex = 0
      ∧ s1._stream = s._stream ∧ s1._onPacketFunction = s._onPacketFunction := by
  obtain ⟨s1, e1, hwf1, _, ht1, hs1, hf1⟩ := updateLoop_nonzero bs s h hnz
  have e2 := receive_delim_handler s1 f (hf1.trans hf) (by have := hwf1.1; have := hwf1.2; omega)
  rw [ht1, hidx] at e2
  simp only [List.take_zero, List.nil_append, Nat.sub_zero] at e2
  refine ⟨{ s1 with _receiveBufferIndex := 0 }, ?_, ⟨hwf1.1, Nat.zero_le _⟩, rfl, hs1, hf1⟩
  rw [updateLoop_append, e1]
  simp [updateLoop, e2]

theorem receive_delim (s : PackedSerial BufferSize) (h : WF s) :
    ∃ calls, receive s 0 = some ({ s with _receiveBufferIndex := 0 }, calls)
      ∧ calls.length ≤ 1 := by
  by_cases hf : s._onPacketFunction = none
  · exact ⟨[], receive_delim_none s hf, Nat.zero_le _⟩
  · obtain ⟨f, hf2⟩ : ∃ f, s._onPacketFunction = some f := by
      cases h0 : s._onPacketFunction with
      | none => exact absurd h0 hf
      | some f => exact ⟨f, rfl⟩
    exact ⟨_, receive_delim_handler s f hf2 (by have := h.1; have := h.2; omega),
      Nat.le_refl _⟩

theorem update_of_stream (s : PackedSerial BufferSize) (bs : List Byte)
    (hs : s._stream ≠ none) : update s bs = updateLoop bs s := by
  simp [update, hs]

theorem updateLoop_saturated (bs : List Byte) (s : PackedSerial BufferSize)
    (hnz : ∀ b ∈ bs, b ≠ 0) (hsat : ¬ (s._receiveBufferIndex + 1 < BufferSize)) :
    updateLoop bs s = some (s, []) := by
  induction bs with
  | nil => rfl
  | cons d bs ih =>
    have e1 := receive_data_drop s d (hnz d (by simp)) hsat
    have e2 := ih (fun b hb => hnz b (by simp [hb]))
    simp [updateLoop, e1, e2]

theorem updateLoop_overflow (bs rest : List Byte) (s : PackedSerial BufferSize) (h : WF s)
    (hidx : s._receiveBufferIndex = 0) (hnz : ∀ b ∈ bs, b ≠ 0) :
    updateLoop (bs ++ rest) s = updateLoop (bs.take (BufferSize - 1) ++ rest) s := by
  have hnz1 : ∀ b ∈ bs.take (BufferSize - 1), b ≠ 0 :=
    fun b hb => hnz b (List.mem_of_mem_take hb)
  have hnz2 : ∀ b ∈ bs.drop (BufferSize - 1), b ≠ 0 :=
    fun b hb => hnz b (List.mem_of_mem_drop hb)
  obtain ⟨sA, eA, _, hiA, _⟩ := updateLoop_nonzero (bs.take (BufferSize - 1)) s h hnz1
  by_cases hlen : bs.length ≤ BufferSize - 1
  · rw [List.take_of_length_le hlen]
  · have hsat : ¬ (sA._receiveBufferIndex + 1 < BufferSize) := by
      rw [hiA, hidx, List.length_take]
      omega
    have eB := updateLoop_saturated (bs.drop (BufferSize - 1)) sA hnz2 hsat
    have hsplit : bs ++ rest
        = bs.take (BufferSize - 1) ++ (bs.drop (BufferSize - 1) ++ rest) := by
      rw [← List.append_assoc, List.take_append_drop]
    rw [hsplit, updateLoop_append, updateLoop_append (bs.take (BufferSize - 1)) rest, eA]
    simp only
    rw [updateLoop_append, eB]
    simp only [List.nil_append]
    cases updateLoop rest sA with
    | none => rfl
    | some r => rfl

theorem receive_inv (s s1 : PackedSerial BufferSize) (d : Byte) (calls : List Invocation)
    (h : receive s d = some (s1, calls)) (hwf : WF s)
    (hnz : ∀ b ∈ s._receiveBuffer.take s._receiveBufferIndex, b ≠ 0) :
    WF s1 ∧ (∀ b ∈ s1._receiveBuffer.take s1._receiveBufferIndex, b ≠ 0)
      ∧ (∀ i, BufferSize - 1 ≤ i → s1._receiveBuffer[i]? = s._receiveBuffer[i]?)
      ∧ (s1._receiveBuffer = s._receiveBuffer
          ∨ (s._receiveBufferIndex < BufferSize - 1
              ∧ s1._receiveBuffer = s._receiveBuffer.set s._receiveBufferIndex d)) := by
  by_cases hd : d = 0
  · subst hd
    obtain ⟨c, e, _⟩ := receive_delim s hwf
    rw [e] at h
    simp only [Option.some.injEq, Prod.mk.injEq] at h
    obtain ⟨rfl, _⟩ := h
    exact ⟨⟨hwf.1, Nat.zero_le _⟩, by simp, fun _ _ => rfl, Or.inl rfl⟩
  · by_cases hlt : s._receiveBufferIndex + 1 < BufferSize
    · rw [receive_data_store s d hd hwf.1 hlt] at h
      simp only [Option.some.injEq, Prod.mk.injEq] at h
      obtain ⟨rfl, _⟩ := h
      refine ⟨⟨by simp [hwf.1], by simp; omega⟩, ?_, ?_, Or.inr ⟨by omega, rfl⟩⟩
      · intro b hb
        simp only at hb
        rw [take_set_succ _ _ _ (by have := hwf.1; omega)] at hb
        simp only [List.mem_append, List.mem_singleton] at hb
        rcases hb with hb | rfl
        · exact hnz b hb
        · exact hd
      · intro i hi
        simp only
        exact List.getElem?_set_ne (by omega)
    · rw [receive_data_drop s d hd hlt] at h
      simp only [Option.some.injEq, Prod.mk.injEq] at h
      obtain ⟨rfl, _⟩ := h
      exact ⟨hwf, hnz, fun _ _ => rfl, Or.inl rfl⟩

theorem updateLoop_inv (bs : List Byte) :
    ∀ (s s1 : PackedSerial BufferSize) (calls : List Invocation),
      updateLoop bs s = some (s1, calls) → WF s →
      (∀ b ∈ s._receiveBuffer.take s._receiveBufferIndex, b ≠ 0) →
      WF s1 ∧ (∀ b ∈ s1._receiveBuffer.take s1._receiveBufferIndex, b ≠ 0)
        ∧ (∀ i, BufferSize - 1 ≤ i → s1._receiveBuffer[i]? = s._receiveBuffer[i]?) := by
  induction bs with
  | nil =>
    intro s s1 calls h hwf hnz
    simp only [updateLoop, Option.some.injEq, Prod.mk.injEq] at h
    obtain ⟨rfl, _⟩ := h
    exact ⟨hwf, hnz, fun _ _ => rfl⟩
  | cons d bs ih =>
    intro s s1 calls h hwf hnz
    simp only [updateLoop] at h
    cases h1 : receive s d with
    | none => simp [h1] at h
    | some r =>
      obtain ⟨t, c1⟩ := r
      cases h2 : updateLoop bs t with
      | none => simp [h1, h2] at h
      | some r2 =>
        obtain ⟨t2, c2⟩ := r2
        simp only [h1, h2, Option.some.injEq, Prod.mk.injEq] at h
        obtain ⟨rfl, _⟩ := h
        obtain ⟨a1, a2, a3, _⟩ := receive_inv s t d c1 h1 hwf hnz
        obtain ⟨b1, b2, b3⟩ := ih t t2 c2 h2 a1 a2
        exact ⟨b1, b2, fun i hi => (b3 i hi).trans (a3 i hi)⟩

theorem call_inv (s s1 : PackedSerial BufferSize) (c : Call) (calls : List Invocation)
    (written : List Byte) (h : call s c = some (s1, calls, written)) (hwf : WF s)
    (hnz : ∀ b ∈ s._receiveBuffer.take s._receiveBufferIndex, b ≠ 0) :
    WF s1 ∧ (∀ b ∈ s1._receiveBuffer.take s1._receiveBufferIndex, b ≠ 0)
      ∧ (∀ i, BufferSize - 1 ≤ i → s1._receiveBuffer[i]? = s._receiveBuffer[i]?) := by
  cases c with
  | setStream st =>
    simp only [call, Option.some.injEq, Prod.mk.injEq] at h
    obtain ⟨rfl, _⟩ := h
    exact ⟨hwf, hnz, fun _ _ => rfl⟩
  | setPacketHandler f =>
    simp only [call, Option.some.injEq, Prod.mk.injEq] at h
    obtain ⟨rfl, _⟩ := h
    exact ⟨hwf, hnz, fun _ _ => rfl⟩
  | update av =>
    simp only [call] at h
    cases h1 : update s av with
    | none => simp [h1] at h
    | some r =>
      obtain ⟨t, c1⟩ := r
      simp only [h1, Option.some.injEq, Prod.mk.injEq] at h
      obtain ⟨rfl, _⟩ := h
      unfold update at h1
      split at h1
      · simp only [Option.some.injEq, Prod.mk.injEq] at h1
        obtain ⟨rfl, _⟩ := h1
        exact ⟨hwf, hnz, fun _ _ => rfl⟩
      · exact updateLoop_inv av s t c1 h1 hwf hnz
  | send buffer size =>
    simp only [call] at h
    cases h1 : send s buffer size with
    | none => simp [h1] at h
    | some w =>
      simp only [h1, Option.some.injEq, Prod.mk.injEq] at h
      obtain ⟨rfl, _⟩ := h
      exact ⟨hwf, hnz, fun _ _ => rfl⟩

theorem callAll_inv (cs : List Call) :
    ∀ (s s1 : PackedSerial BufferSize) (calls : List Invocation) (written : List Byte),
      callAll cs s = some (s1, calls, written) → WF s →
      (∀ b ∈ s._receiveBuffer.take s._receiveBufferIndex, b ≠ 0) →
      WF s1 ∧ (∀ b ∈ s1._receiveBuffer.take s1._receiveBufferIndex, b ≠ 0)
        ∧ (∀ i, BufferSize - 1 ≤ i → s1._receiveBuffer[i]? = s._receiveBuffer[i]?) := by
  induction cs with
  | nil =>
    intro s s1 calls written h hwf hnz
    simp only [callAll, Option.some.injEq, Prod.mk.injEq] at h
    obtain ⟨rfl, _⟩ := h
    exact ⟨hwf, hnz, fun _ _ => rfl⟩
  | cons c cs ih =>
    intro s s1 calls written h hwf hnz
    simp only [callAll] at h
    cases h1 : call s c with
    | none => simp [h1] at h
    | some r =>
      obtain ⟨t, c1, w1⟩ := r
      cases h2 : callAll cs t with
      | none => simp [h1, h2] at h
      | some r2 =>
        obtain ⟨t2, c2, w2⟩ := r2
        simp only [h1, h2, Option.some.injEq, Prod.mk.injEq] at h
        obtain ⟨rfl, _⟩ := h
        obtain ⟨a1, a2, a3⟩ := call_inv s t c c1 w1 h1 hwf hnz
        obtain ⟨b1, b2, b3⟩ := ih t t2 c2 w2 h2 a1 a2
        exact ⟨b1, b2, fun i hi => (b3 i hi).trans (a3 i hi)⟩

theorem send_eq (s : PackedSerial BufferSize) (st : Nat) (M : List Byte) (hM : M ≠ [])
    (hs : s._stream = some st) :
    s.send (some M) M.length = some (encGroups [] M ++ [0]) := by
  have hle := encGroups_length_le [] M
  have hcap : (encGroups [] (M.take M.length)).length
      ≤ (List.replicate (COBS.getEncodedBufferSize M.length) (0 : Byte)).length := by
    simp [COBS.getEncodedBufferSize] at hle ⊢; omega
  have h := encode_eq M (List.replicate (COBS.getEncodedBufferSize M.length) 0) M.length
    (Nat.le_refl _) hcap
  simp only [List.take_length] at h
  have hlen : M.length ≠ 0 := fun h0 => hM (List.eq_nil_of_length_eq_zero h0)
  simp [send, hs, hlen, h]

theorem update_fresh_frame (storage : Fin BufferSize → Byte) (st f : Nat) (bs : List Byte)
    (hnz : ∀ b ∈ bs, b ≠ 0) :
    ∃ s1, update (((construct BufferSize storage).setStream st).setPacketHandler (some f))
        (bs ++ [0]) = some (s1, [⟨f, decodeList (bs.take (BufferSize - 1))⟩]) := by
  obtain ⟨s1, e1, _⟩ := updateLoop_frame bs
    (((construct BufferSize storage).setStream st).setPacketHandler (some f)) f
    (WF_construct storage) rfl rfl hnz
  refine ⟨s1, ?_⟩
  rw [update_of_stream _ _ (by simp [setPacketHandler, setStream])]
  exact e1

end PackedSerial

/-! ## Malformed input -/

theorem malformedFrom_eq (fuel : Nat) :
    ∀ l : List Byte, l.length ≤ fuel → malformedFrom fuel l = !(decGroups l).2 := by
  induction fuel with
  | zero =>
    intro l hl
    have : l = [] := List.eq_nil_of_length_eq_zero (by omega)
    subst this
    simp [malformedFrom, decGroups_nil]
  | succ k ih =>
    intro l hl
    cases l with
    | nil => simp [malformedFrom, decGroups_nil]
    | cons c rest =>
      rw [malformedFrom, decGroups_cons]
      by_cases hm : c.val > rest.length + 1 ∧ c ≠ 1
      · have hm2 : c ≠ 1 ∧ c.val > rest.length + 1 := ⟨hm.2, hm.1⟩
        rw [if_pos hm, if_pos hm2]
        rfl
      · have hm2 : ¬ (c ≠ 1 ∧ c.val > rest.length + 1) := fun h => hm ⟨h.2, h.1⟩
        rw [if_neg hm, if_neg hm2]
        exact ih _ (by simp at hl ⊢; omega)

theorem decode_malformed (enc D : List Byte) (hm : malformed enc = true)
    (hD : enc.length ≤ D.length) :
    ∃ D1, COBS.decode enc enc.length D = some (0, D1) := by
  have h2 : (decGroups enc).2 = false := by
    have := malformedFrom_eq enc.length enc (Nat.le_refl _)
    unfold malformed at hm
    rw [hm] at this
    simpa using this.symm
  have hle := decGroups_length_le enc
  have h := decode_eq enc D enc.length (Nat.le_refl _) (by simp; omega)
  simp only [List.take_length, h2] at h
  exact ⟨_, h⟩

/-! ## The claims -/

/-- C1 (round trip).  For every byte sequence `M`, `COBS::encode` on an output array of at
least `getEncodedBufferSize(|M|)` bytes returns a length `n`, and `COBS::decode` on those `n`
encoded bytes, with any output array of at least `n` bytes, returns `|M|` and leaves `M` in
the first `|M|` bytes of the decoded array. -/
theorem C1_round_trip (M E : List Byte)
    (hE : COBS.getEncodedBufferSize M.length ≤ E.length) :
    ∃ n E1, COBS.encode M M.length E = some (n, E1) ∧
      ∀ D : List Byte, n ≤ D.length →
        ∃ D1, COBS.decode E1 n D = some (M.length, D1) ∧ D1.take M.length = M := by
  have hle := encGroups_length_le [] M
  have hcap : (encGroups [] (M.take M.length)).length ≤ E.length := by
    simp [COBS.getEncodedBufferSize] at hE hle ⊢; omega
  refine ⟨_, _, encode_eq M E M.length (Nat.le_refl _) hcap, ?_⟩
  intro D hD
  simp only [List.take_length] at hD ⊢
  obtain ⟨n, D1, h1, h2, h3, _⟩ := decode_take
    (encGroups [] M ++ E.drop (encGroups [] M).length) D (encGroups [] M).length
    (by simp) hD
  have htake : List.take (encGroups [] M).length
      (encGroups [] M ++ E.drop (encGroups [] M).length) = encGroups [] M := by
    simp
  rw [htake, decodeList_encGroups] at h2 h3
  subst h3
  exact ⟨D1, h1, h2⟩

/-- Witness of C1 on a message with a leading and a trailing zero byte. -/
theorem C1_round_trip_witness :
    COBS.getEncodedBufferSize [(0 : Byte), 7, 0].length ≤ (List.replicate 4 (0 : Byte)).length ∧
    ∃ n E1, COBS.encode [(0 : Byte), 7, 0] [(0 : Byte), 7, 0].length (List.replicate 4 0)
        = some (n, E1) ∧
      ∀ D : List Byte, n ≤ D.length →
        ∃ D1, COBS.decode E1 n D = some ([(0 : Byte), 7, 0].length, D1)
          ∧ D1.take [(0 : Byte), 7, 0].length = [(0 : Byte), 7, 0] :=
  ⟨by decide, C1_round_trip [0, 7, 0] (List.replicate 4 0) (by decide)⟩

/-- C2 (no zero byte).  For every byte sequence `M`, each of the first `returned length` bytes
that `COBS::encode` leaves in the encoded array has a value from 0x01 to 0xFF. -/
theorem C2_no_zero (M E : List Byte)
    (hE : COBS.getEncodedBufferSize M.length ≤ E.length) :
    ∃ n E1, COBS.encode M M.length E = some (n, E1) ∧
      ∀ b ∈ E1.take n, 1 ≤ b.val ∧ b.val ≤ 255 ∧ b ≠ 0 := by
  have hle := encGroups_length_le [] M
  have hcap : (encGroups [] (M.take M.length)).length ≤ E.length := by
    simp [COBS.getEncodedBufferSize] at hE hle ⊢; omega
  refine ⟨_, _, encode_eq M E M.length (Nat.le_refl _) hcap, ?_⟩
  intro b hb
  simp only [List.take_length, List.take_left] at hb
  have hne := encGroups_ne_zero M [] (by simp) (by simp) b hb
  refine ⟨?_, ?_, hne⟩
  · have : b.val ≠ 0 := fun h => hne (Fin.ext h)
    omega
  · have := b.isLt
    omega

/-- Witness of C2 on a message of two zero bytes. -/
theorem C2_no_zero_witness :
    COBS.getEncodedBufferSize [(0 : Byte), 0].length ≤ (List.replicate 3 (0 : Byte)).length ∧
    ∃ n E1, COBS.encode [(0 : Byte), 0] [(0 : Byte), 0].length (List.replicate 3 0)
        = some (n, E1) ∧
      ∀ b ∈ E1.take n, 1 ≤ b.val ∧ b.val ≤ 255 ∧ b ≠ 0 :=
  ⟨by decide, C2_no_zero [0, 0] (List.replicate 3 0) (by decide)⟩

/-- C3 (encode buffer bound).  `getEncodedBufferSize(n)` is `n + n / 254 + 1`, which is 1 for
`n = 0`.  For every input `M` there is a length `n`, at most `getEncodedBufferSize(|M|)`, such
that `COBS::encode` on any output array of at least `n` bytes returns `n` without an access
outside the array and leaves every byte of the array from index `n` on as it was: all its
stores are at indices below `n`. -/
theorem C3_encode_buffer_bound (M : List Byte) :
    COBS.getEncodedBufferSize M.length = M.length + M.length / 254 + 1 ∧
    COBS.getEncodedBufferSize 0 = 1 ∧
    ∃ n, n ≤ COBS.getEncodedBufferSize M.length ∧
      ∀ E : List Byte, n ≤ E.length →
        ∃ E1, COBS.encode M M.length E = some (n, E1) ∧ E1.length = E.length
          ∧ E1.drop n = E.drop n := by
  refine ⟨rfl, rfl, (encGroups [] M).length, ?_, ?_⟩
  · have := encGroups_length_le [] M
    simp [COBS.getEncodedBufferSize] at this ⊢; omega
  · intro E hE
    have h := encode_eq M E M.length (Nat.le_refl _) (by simpa using hE)
    simp only [List.take_length] at h
    refine ⟨_, h, ?_, ?_⟩
    · simp; omega
    · simp

/-- C4, as the code has it.  Let `encode(M)` have `n` bytes with `n <= BufferSize - 1` (for a
message shorter than 254 bytes `n = |M| + 1`, so these are the messages of at most
`BufferSize - 2` bytes).  Feeding the `n` encoded bytes and one delimiter 0x00 to a newly
constructed assembler with a stream and a handler set, split in any way into successive
`update()` calls, gives exactly one handler call, and its payload is `M`. -/
theorem C4_streaming_when_frame_fits (BufferSize : Nat) (storage : Fin BufferSize → Byte)
    (st f : Nat) (M E E1 : List Byte) (n : Nat) (chunks : List (List Byte))
    (hE : COBS.getEncodedBufferSize M.length ≤ E.length)
    (henc : COBS.encode M M.length E = some (n, E1))
    (hfit : n ≤ BufferSize - 1)
    (hchunks : chunks.flatten = E1.take n ++ [0]) :
    (∃ s1, PackedSerial.updateCalls chunks
        (((PackedSerial.construct BufferSize storage).setStream st).setPacketHandler (some f))
        = some (s1, [⟨f, M⟩]))
      ∧ (M.length < 254 → n = M.length + 1) := by
  have hle := encGroups_length_le [] M
  have hcap : (encGroups [] (M.take M.length)).length ≤ E.length := by
    simp [COBS.getEncodedBufferSize] at hE hle ⊢; omega
  have h := encode_eq M E M.length (Nat.le_refl _) hcap
  rw [henc] at h
  simp only [List.take_length, Option.some.injEq, Prod.mk.injEq] at h
  obtain ⟨hn, hE1⟩ := h
  have htake : E1.take n = encGroups [] M := by
    rw [hE1, hn]; simp
  refine ⟨?_, fun hlt => ?_⟩
  · rw [PackedSerial.updateCalls_flatten, hchunks, htake,
      PackedSerial.update_of_stream _ _ (by simp [PackedSerial.setPacketHandler,
        PackedSerial.setStream])]
    obtain ⟨s1, e1, _⟩ := PackedSerial.updateLoop_frame (encGroups [] M)
      (((PackedSerial.construct BufferSize storage).setStream st).setPacketHandler (some f)) f
      (PackedSerial.WF_construct storage) rfl rfl
      (encGroups_ne_zero M [] (by simp) (by simp))
    rw [List.take_of_length_le (by omega), decodeList_encGroups] at e1
    exact ⟨s1, e1⟩
  · rw [hn]
    have := encGroups_length_small [] M (by simpa using hlt)
    simpa using this

/-- Witness of C4 as amended: the message `[0, 7]` with capacity 4, the frame arriving in the
chunks `[1]`, `[2, 7]`, `[]`, `[0]`. -/
theorem C4_streaming_when_frame_fits_witness :
    (COBS.getEncodedBufferSize [(0 : Byte), 7].length ≤ (List.replicate 4 (0 : Byte)).length
      ∧ COBS.encode [(0 : Byte), 7] [(0 : Byte), 7].length (List.replicate 4 0)
          = some (3, [1, 2, 7, 0])
      ∧ 3 ≤ 4 - 1
      ∧ [[(1 : Byte)], [2, 7], [], [0]].flatten = [(1 : Byte), 2, 7, 0].take 3 ++ [0])
    ∧ ((∃ s1, PackedSerial.updateCalls [[(1 : Byte)], [2, 7], [], [0]]
          (((PackedSerial.construct 4 (fun _ => 0)).setStream 0).setPacketHandler (some 0))
          = some (s1, [⟨0, [0, 7]⟩]))
      ∧ ([(0 : Byte), 7].length < 254 → 3 = [(0 : Byte), 7].length + 1)) :=
  ⟨by decide,
    C4_streaming_when_frame_fits 4 (fun _ => 0) 0 0 [0, 7] (List.replicate 4 0) [1, 2, 7, 0] 3
      [[1], [2, 7], [], [0]] (by decide) (by decide) (by decide) (by decide)⟩

/-- C4 as stated fails: with `BufferSize = 2` the one-byte message `[5]` has length
`BufferSize - 1`, its encoding is `[2, 5]`, and feeding `[2, 5, 0]` to a newly constructed
assembler gives one handler call with the empty payload, not `[5]`. -/
theorem C4_counterexample :
    ([5] : List Byte).length ≤ 2 - 1
      ∧ COBS.encode [5] 1 [0, 0] = some (2, [2, 5])
      ∧ (PackedSerial.update
            (((PackedSerial.construct 2 (fun _ => 0)).setStream 0).setPacketHandler (some 0))
            [2, 5, 0]).map Prod.snd = some [⟨0, []⟩]
      ∧ ([⟨0, []⟩] : List Invocation) ≠ [⟨0, [5]⟩] := by
  decide

/-- C5, as the code has it.  On every encoded input in which some group's code byte, other
than 1, declares more bytes than remain, `COBS::decode` returns 0, and it returns 0 on the
valid encoding `[0x01]` of the zero-length message too: the returned value is the same. -/
theorem C5_malformed_returns_zero (enc D : List Byte) (hm : malformed enc = true)
    (hD : enc.length ≤ D.length) :
    (COBS.decode enc enc.length D).map Prod.fst = some 0
      ∧ (COBS.decode [1] 1 D).map Prod.fst = some 0 := by
  obtain ⟨D1, h⟩ := decode_malformed enc D hm hD
  refine ⟨by rw [h]; rfl, ?_⟩
  have h1 := decode_eq [1] D 1 (by simp) (by
    rw [show List.take 1 [(1 : Byte)] = [1] from rfl, decGroups_cons]
    simp [decGroups_nil])
  rw [h1]
  rw [show List.take 1 [(1 : Byte)] = [1] from rfl, decGroups_cons]
  simp [decGroups_nil]

/-- Witness of C5 as amended: the input `[5, 0x11]`, whose code 5 declares five bytes where
two remain. -/
theorem C5_malformed_returns_zero_witness :
    (malformed [5, 0x11] = true ∧ [(5 : Byte), 0x11].length ≤ [(9 : Byte), 9].length)
    ∧ ((COBS.decode [5, 0x11] [(5 : Byte), 0x11].length [9, 9]).map Prod.fst = some 0
      ∧ (COBS.decode [1] 1 [9, 9]).map Prod.fst = some 0) :=
  ⟨by decide, C5_malformed_returns_zero [5, 0x11] [9, 9] (by decide) (by decide)⟩

/-- C5 as stated fails: on the malformed input `[5, 0x11]` and on the valid encoding `[1]` of
the empty message `COBS::decode` gives the same result, the value 0 and an untouched decoded
array. -/
theorem C5_counterexample :
    malformed [5, 0x11] = true
      ∧ COBS.decode [5, 0x11] 2 [9, 9] = some (0, [9, 9])
      ∧ COBS.decode [1] 1 [9, 9] = some (0, [9, 9])
      ∧ COBS.decode [5, 0x11] 2 [9, 9] = COBS.decode [1] 1 [9, 9] := by
  decide

/-- C6 (chunking independence).  For every assembler state, processing `A` in one `update()`
call and `B` in the next equals processing `A ++ B` in one call: same final state, same
handler calls in the same order.  So any split of a byte sequence into successive `update()`
calls gives the result of a single call on the whole sequence; and from a state that
satisfies the class invariant `update()` runs to completion without an access outside an
array. -/
theorem C6_chunking_independence {BufferSize : Nat} (s : PackedSerial BufferSize) :
    (∀ A B : List Byte,
      PackedSerial.update s (A ++ B)
        = match PackedSerial.update s A with
          | none => none
          | some (s1, calls1) =>
            match PackedSerial.update s1 B with
            | none => none
            | some (s2, calls2) => some (s2, calls1 ++ calls2))
    ∧ (∀ chunks : List (List Byte),
      PackedSerial.updateCalls chunks s = PackedSerial.update s chunks.flatten)
    ∧ (PackedSerial.WF s → ∀ bytes : List Byte,
      ∃ s1 calls, PackedSerial.update s bytes = some (s1, calls) ∧ PackedSerial.WF s1) :=
  ⟨fun A B => PackedSerial.update_append A B s,
    fun chunks => PackedSerial.updateCalls_flatten chunks s,
    fun h bytes => PackedSerial.update_total bytes s h⟩

/-- C7 (self-resynchronisation).  Take two states `s1`, `s2` of an assembler, each within the
class invariant and with a stream set, and with the same handler; the buffer index and the
buffer contents may differ.  After a delimiter 0x00 both have index 0, and on every byte
sequence `F` that follows they make the same handler calls and end with the same index.  A
newly constructed assembler with that handler does the same on `F`. -/
theorem C7_resynchronisation {BufferSize : Nat} (s1 s2 : PackedSerial BufferSize)
    (F : List Byte) (h1 : PackedSerial.WF s1) (h2 : PackedSerial.WF s2)
    (hh : s1._onPacketFunction = s2._onPacketFunction)
    (hs1 : s1._stream ≠ none) (hs2 : s2._stream ≠ none) :
    ∃ t1 t2 c1 c2 u1 u2 calls,
      PackedSerial.update s1 [0] = some (t1, c1) ∧ PackedSerial.update s2 [0] = some (t2, c2)
      ∧ t1._receiveBufferIndex = 0 ∧ t2._receiveBufferIndex = 0
      ∧ PackedSerial.update t1 F = some (u1, calls) ∧ PackedSerial.update t2 F = some (u2, calls)
      ∧ u1._receiveBufferIndex = u2._receiveBufferIndex
      ∧ PackedSerial.update s1 (0 :: F) = some (u1, c1 ++ calls)
      ∧ PackedSerial.update s2 (0 :: F) = some (u2, c2 ++ calls)
      ∧ ∀ (storage : Fin BufferSize → Byte) (st : Nat),
          ∃ u3, PackedSerial.update
              (((PackedSerial.construct BufferSize storage).setStream st).setPacketHandler
                s1._onPacketFunction) F = some (u3, calls)
            ∧ u3._receiveBufferIndex = u1._receiveBufferIndex := by
  obtain ⟨c1, e1, _⟩ := PackedSerial.receive_delim s1 h1
  obtain ⟨c2, e2, _⟩ := PackedSerial.receive_delim s2 h2
  have hsim : PackedSerial.Sim ({ s1 with _receiveBufferIndex := 0 } : PackedSerial BufferSize)
      ({ s2 with _receiveBufferIndex := 0 } : PackedSerial BufferSize) :=
    ⟨⟨h1.1, Nat.zero_le _⟩, ⟨h2.1, Nat.zero_le _⟩, rfl, by simp, hh, by simp [hs1, hs2]⟩
  obtain ⟨u1, u2, calls, e3, e4, hsim2, _, _, _⟩ := PackedSerial.updateLoop_sim F _ _ hsim
  have hu1 : PackedSerial.update s1 [0]
      = some (({ s1 with _receiveBufferIndex := 0 } : PackedSerial BufferSize), c1) := by
    simp [PackedSerial.update, hs1, PackedSerial.updateLoop, e1]
  have hu2 : PackedSerial.update s2 [0]
      = some (({ s2 with _receiveBufferIndex := 0 } : PackedSerial BufferSize), c2) := by
    simp [PackedSerial.update, hs2, PackedSerial.updateLoop, e2]
  have hv1 : PackedSerial.update ({ s1 with _receiveBufferIndex := 0 } : PackedSerial BufferSize)
      F = some (u1, calls) := by
    rw [PackedSerial.update_of_stream _ _ (by simpa using hs1)]; exact e3
  have hv2 : PackedSerial.update ({ s2 with _receiveBufferIndex := 0 } : PackedSerial BufferSize)
      F = some (u2, calls) := by
    rw [PackedSerial.update_of_stream _ _ (by simpa using hs2)]; exact e4
  refine ⟨_, _, c1, c2, u1, u2, calls, hu1, hu2, rfl, rfl, hv1, hv2, hsim2.2.2.1, ?_, ?_, ?_⟩
  · have := PackedSerial.update_append [0] F s1
    rw [hu1] at this
    simp only [hv1] at this
    exact this
  · have := PackedSerial.update_append [0] F s2
    rw [hu2] at this
    simp only [hv2] at this
    exact this
  · intro storage st
    have hsim3 : PackedSerial.Sim
        ({ s1 with _receiveBufferIndex := 0 } : PackedSerial BufferSize)
        (((PackedSerial.construct BufferSize storage).setStream st).setPacketHandler
          s1._onPacketFunction) :=
      ⟨⟨h1.1, Nat.zero_le _⟩, PackedSerial.WF_construct storage, rfl, by
        simp [PackedSerial.construct, PackedSerial.setStream, PackedSerial.setPacketHandler],
        rfl, by simp [hs1, PackedSerial.setStream, PackedSerial.setPacketHandler]⟩
    obtain ⟨v1, u3, calls3, e5, e6, hsim4, _, _, _⟩ := PackedSerial.updateLoop_sim F _ _ hsim3
    rw [e3] at e5
    simp only [Option.some.injEq, Prod.mk.injEq] at e5
    obtain ⟨rfl, rfl⟩ := e5
    refine ⟨u3, ?_, hsim4.2.2.1.symm⟩
    rw [PackedSerial.update_of_stream _ _ (by
      simp [PackedSerial.setStream, PackedSerial.setPacketHandler])]
    exact e6

/-- Witness of C7: capacity 3, one state that has overflowed on `[4, 9]` and one with an empty
buffer, followed by the frame `[2, 5]` and its delimiter. -/
theorem C7_resynchronisation_witness :
    (PackedSerial.WF (⟨[4, 9, 0], 2, some 0, some 1⟩ : PackedSerial 3)
      ∧ PackedSerial.WF (⟨[0, 0, 0], 0, some 0, some 1⟩ : PackedSerial 3)
      ∧ (⟨[4, 9, 0], 2, some 0, some 1⟩ : PackedSerial 3)._onPacketFunction
          = (⟨[0, 0, 0], 0, some 0, some 1⟩ : PackedSerial 3)._onPacketFunction
      ∧ (⟨[4, 9, 0], 2, some 0, some 1⟩ : PackedSerial 3)._stream ≠ none
      ∧ (⟨[0, 0, 0], 0, some 0, some 1⟩ : PackedSerial 3)._stream ≠ none)
    ∧ ∃ t1 t2 c1 c2 u1 u2 calls,
      PackedSerial.update (⟨[4, 9, 0], 2, some 0, some 1⟩ : PackedSerial 3) [0] = some (t1, c1)
      ∧ PackedSerial.update (⟨[0, 0, 0], 0, some 0, some 1⟩ : PackedSerial 3) [0] = some (t2, c2)
      ∧ t1._receiveBufferIndex = 0 ∧ t2._receiveBufferIndex = 0
      ∧ PackedSerial.update t1 [2, 5, 0] = some (u1, calls)
      ∧ PackedSerial.update t2 [2, 5, 0] = some (u2, calls)
      ∧ u1._receiveBufferIndex = u2._receiveBufferIndex
      ∧ PackedSerial.update (⟨[4, 9, 0], 2, some 0, some 1⟩ : PackedSerial 3) (0 :: [2, 5, 0])
          = some (u1, c1 ++ calls)
      ∧ PackedSerial.update (⟨[0, 0, 0], 0, some 0, some 1⟩ : PackedSerial 3) (0 :: [2, 5, 0])
          = some (u2, c2 ++ calls)
      ∧ ∀ (storage : Fin 3 → Byte) (st : Nat),
          ∃ u3, PackedSerial.update
              (((PackedSerial.construct 3 storage).setStream st).setPacketHandler
                (⟨[4, 9, 0], 2, some 0, some 1⟩ : PackedSerial 3)._onPacketFunction) [2, 5, 0]
              = some (u3, calls)
            ∧ u3._receiveBufferIndex = u1._receiveBufferIndex :=
  ⟨⟨⟨rfl, by decide⟩, ⟨rfl, by decide⟩, rfl, by decide, by decide⟩,
    C7_resynchronisation ⟨[4, 9, 0], 2, some 0, some 1⟩ ⟨[0, 0, 0], 0, some 0, some 1⟩ [2, 5, 0]
      ⟨rfl, by decide⟩ ⟨rfl, by decide⟩ rfl (by decide) (by decide)⟩

/-- C8 (overflow determinism).  Feed a sequence `bs` of non-zero bytes with more than
`BufferSize - 1` elements, then a delimiter 0x00, to a newly constructed assembler with a
stream and a handler set (any capacity).  There is exactly one handler call; its payload is
what `COBS::decode` returns for the first `BufferSize - 1` bytes of `bs`; the index is 0
afterwards; and the final state and the call are those obtained by feeding only the first
`BufferSize - 1` bytes and the delimiter, so the later bytes have no effect. -/
theorem C8_overflow_determinism (BufferSize : Nat) (storage : Fin BufferSize → Byte)
    (st f : Nat) (bs : List Byte) (hnz : ∀ b ∈ bs, b ≠ 0) (hlen : BufferSize - 1 < bs.length) :
    ∃ s1 n D1,
      COBS.decode (bs.take (BufferSize - 1)) (BufferSize - 1)
          (List.replicate (BufferSize - 1) 0) = some (n, D1)
      ∧ PackedSerial.update
          (((PackedSerial.construct BufferSize storage).setStream st).setPacketHandler (some f))
          (bs ++ [0]) = some (s1, [⟨f, D1.take n⟩])
      ∧ s1._receiveBufferIndex = 0
      ∧ PackedSerial.update
          (((PackedSerial.construct BufferSize storage).setStream st).setPacketHandler (some f))
          (bs.take (BufferSize - 1) ++ [0]) = some (s1, [⟨f, D1.take n⟩]) := by
  obtain ⟨n, D1, hd, htake, _, _⟩ := decode_take (bs.take (BufferSize - 1))
    (List.replicate (BufferSize - 1) 0) (BufferSize - 1)
    (by rw [List.length_take]; omega) (by simp)
  rw [List.take_take, Nat.min_self] at htake
  obtain ⟨s1, e1, _, hi1, _⟩ := PackedSerial.updateLoop_frame bs
    (((PackedSerial.construct BufferSize storage).setStream st).setPacketHandler (some f)) f
    (PackedSerial.WF_construct storage) rfl rfl hnz
  have hstream : (((PackedSerial.construct BufferSize storage).setStream st).setPacketHandler
      (some f))._stream ≠ none := by
    simp [PackedSerial.setStream, PackedSerial.setPacketHandler]
  refine ⟨s1, n, D1, hd, ?_, hi1, ?_⟩
  · rw [PackedSerial.update_of_stream _ _ hstream, e1, htake]
  · have hov := PackedSerial.updateLoop_overflow bs [0]
      (((PackedSerial.construct BufferSize storage).setStream st).setPacketHandler (some f))
      (PackedSerial.WF_construct storage) rfl hnz
    rw [PackedSerial.update_of_stream _ _ hstream, ← hov, e1, htake]

/-- Witness of C8: capacity 3 and the five non-zero bytes `[3, 7, 8, 9, 4]`. -/
theorem C8_overflow_determinism_witness :
    ((∀ b ∈ [(3 : Byte), 7, 8, 9, 4], b ≠ 0) ∧ 3 - 1 < [(3 : Byte), 7, 8, 9, 4].length)
    ∧ ∃ s1 n D1,
      COBS.decode ([(3 : Byte), 7, 8, 9, 4].take (3 - 1)) (3 - 1)
          (List.replicate (3 - 1) 0) = some (n, D1)
      ∧ PackedSerial.update
          (((PackedSerial.construct 3 (fun _ => 0)).setStream 0).setPacketHandler (some 1))
          ([(3 : Byte), 7, 8, 9, 4] ++ [0]) = some (s1, [⟨1, D1.take n⟩])
      ∧ s1._receiveBufferIndex = 0
      ∧ PackedSerial.update
          (((PackedSerial.construct 3 (fun _ => 0)).setStream 0).setPacketHandler (some 1))
          ([(3 : Byte), 7, 8, 9, 4].take (3 - 1) ++ [0]) = some (s1, [⟨1, D1.take n⟩]) :=
  ⟨⟨by simp, by decide⟩,
    C8_overflow_determinism 3 (fun _ => 0) 0 1 [3, 7, 8, 9, 4] (by simp) (by decide)⟩

/-- C9 (empty frame).  A delimiter 0x00 as the first byte received by a newly constructed
assembler with a stream and a handler set gives exactly one handler call, with a zero-length
message.  In every state with buffer index 0 and a handler set, processing a delimiter gives
one call with a zero-length message and leaves the index at 0. -/
theorem C9_empty_frame (BufferSize : Nat) (storage : Fin BufferSize → Byte) (st f : Nat) :
    PackedSerial.update
        (((PackedSerial.construct BufferSize storage).setStream st).setPacketHandler (some f))
        [0]
      = some (((PackedSerial.construct BufferSize storage).setStream st).setPacketHandler
          (some f), [⟨f, []⟩])
    ∧ ∀ (s : PackedSerial BufferSize) (g : Nat),
        s._receiveBufferIndex = 0 → s._onPacketFunction = some g →
        PackedSerial.receive s 0 = some ({ s with _receiveBufferIndex := 0 }, [⟨g, []⟩])
          ∧ (s._stream ≠ none →
            PackedSerial.update s [0] = some ({ s with _receiveBufferIndex := 0 }, [⟨g, []⟩]))
      := by
  have key : ∀ (s : PackedSerial BufferSize) (g : Nat),
      s._receiveBufferIndex = 0 → s._onPacketFunction = some g →
      PackedSerial.receive s 0 = some ({ s with _receiveBufferIndex := 0 }, [⟨g, []⟩]) := by
    intro s g hi hg
    simp [PackedSerial.receive, hg, hi, COBS.decode]
  refine ⟨?_, fun s g hi hg => ⟨key s g hi hg, fun hs => ?_⟩⟩
  · simp [PackedSerial.update, PackedSerial.updateLoop, PackedSerial.setStream,
      PackedSerial.setPacketHandler, PackedSerial.construct, PackedSerial.receive, COBS.decode]
  · simp [PackedSerial.update, hs, PackedSerial.updateLoop, key s g hi hg]

/-- C10 (send output).  For every non-empty message `M` and a stream that is set, `send`
writes exactly the first `returned length` bytes that `COBS::encode` produces for `M`,
followed by one byte 0x00.  The written sequence has exactly one zero byte, and it is the last
byte. -/
theorem C10_send_output {BufferSize : Nat} (s : PackedSerial BufferSize) (st : Nat)
    (M E : List Byte) (hM : M ≠ []) (hs : s._stream = some st)
    (hE : COBS.getEncodedBufferSize M.length ≤ E.length) :
    ∃ n E1, COBS.encode M M.length E = some (n, E1)
      ∧ s.send (some M) M.length = some (E1.take n ++ [0])
      ∧ (E1.take n ++ [0]).count 0 = 1
      ∧ (E1.take n ++ [0]).getLast? = some 0 := by
  have hle := encGroups_length_le [] M
  have hcap : (encGroups [] (M.take M.length)).length ≤ E.length := by
    simp [COBS.getEncodedBufferSize] at hE hle ⊢; omega
  have hcap2 : (encGroups [] (M.take M.length)).length
      ≤ (List.replicate (COBS.getEncodedBufferSize M.length) (0 : Byte)).length := by
    simp [COBS.getEncodedBufferSize] at hle ⊢; omega
  have h1 := encode_eq M E M.length (Nat.le_refl _) hcap
  have h2 := encode_eq M (List.replicate (COBS.getEncodedBufferSize M.length) 0) M.length
    (Nat.le_refl _) hcap2
  simp only [List.take_length] at h1 h2
  have hlen : M.length ≠ 0 := fun h => hM (List.eq_nil_of_length_eq_zero h)
  have hnz := encGroups_ne_zero M [] (by simp) (by simp)
  refine ⟨_, _, h1, ?_, ?_, ?_⟩
  · simp [PackedSerial.send, hs, hlen, h2]
  · rw [List.count_append]
    have : List.count 0 (encGroups [] M) = 0 :=
      List.count_eq_zero.mpr (fun hmem => hnz 0 hmem rfl)
    simp [this]
  · simp

/-- Witness of C10: the message `[0, 7]` sent from a state with stream 0 set. -/
theorem C10_send_output_witness :
    ([(0 : Byte), 7] ≠ [] ∧ (⟨[0, 0], 0, some 0, none⟩ : PackedSerial 2)._stream = some 0
      ∧ COBS.getEncodedBufferSize [(0 : Byte), 7].length ≤ [(9 : Byte), 9, 9].length)
    ∧ ∃ n E1, COBS.encode [(0 : Byte), 7] [(0 : Byte), 7].length [9, 9, 9] = some (n, E1)
      ∧ (⟨[0, 0], 0, some 0, none⟩ : PackedSerial 2).send (some [0, 7]) [(0 : Byte), 7].length
          = some (E1.take n ++ [0])
      ∧ (E1.take n ++ [0]).count 0 = 1
      ∧ (E1.take n ++ [0]).getLast? = some 0 :=
  ⟨by decide, C10_send_output ⟨[0, 0], 0, some 0, none⟩ 0 [0, 7] [9, 9, 9] (by decide) rfl
    (by decide)⟩

/-- C11 (send no-op).  When the message length is 0, or the message pointer is null, or no
stream has been set, `send` writes no byte; and as a `const` method it leaves the state as it
was, also in these cases. -/
theorem C11_send_noop {BufferSize : Nat} (s : PackedSerial BufferSize)
    (buffer : Option (List Byte)) (size : Nat)
    (h : size = 0 ∨ buffer = none ∨ s._stream = none) :
    s.send buffer size = some [] ∧ s.call (.send buffer size) = some (s, [], []) := by
  have h1 : s.send buffer size = some [] := by
    unfold PackedSerial.send
    rcases h with h | h | h
    · subst h
      cases s._stream <;> cases buffer <;> simp
    · subst h
      cases s._stream <;> simp
    · rw [h]
  exact ⟨h1, by simp [PackedSerial.call, h1]⟩

/-- Witness of C11: a message of length 0 on a state with a stream set. -/
theorem C11_send_noop_witness :
    ((0 : Nat) = 0 ∨ (some [] : Option (List Byte)) = none
      ∨ (⟨[0, 0], 1, some 0, some 1⟩ : PackedSerial 2)._stream = none)
    ∧ ((⟨[0, 0], 1, some 0, some 1⟩ : PackedSerial 2).send (some []) 0 = some []
      ∧ (⟨[0, 0], 1, some 0, some 1⟩ : PackedSerial 2).call (.send (some []) 0)
          = some (⟨[0, 0], 1, some 0, some 1⟩, [], [])) :=
  ⟨Or.inl rfl, C11_send_noop ⟨[0, 0], 1, some 0, some 1⟩ (some []) 0 (Or.inl rfl)⟩

/-- C12 (concrete vector).  On the input `[0x00, 0x11, 0x22, 0x00, 0x33]`, with any output
array of at least 6 bytes, `COBS::encode` returns 6 and the encoded bytes are
`[0x01, 0x03, 0x11, 0x22, 0x02, 0x33]`. -/
theorem C12_concrete_vector (E : List Byte) (hE : 6 ≤ E.length) :
    ∃ E1, COBS.encode [0x00, 0x11, 0x22, 0x00, 0x33] 5 E = some (6, E1)
      ∧ E1.take 6 = [0x01, 0x03, 0x11, 0x22, 0x02, 0x33] := by
  have hg : encGroups [] [0x00, 0x11, 0x22, 0x00, 0x33]
      = [0x01, 0x03, 0x11, 0x22, 0x02, 0x33] := by decide
  have h := encode_eq [0x00, 0x11, 0x22, 0x00, 0x33] E 5 (by simp) (by
    rw [show List.take 5 [(0x00 : Byte), 0x11, 0x22, 0x00, 0x33]
      = [0x00, 0x11, 0x22, 0x00, 0x33] from rfl, hg]
    simpa using hE)
  rw [show List.take 5 [(0x00 : Byte), 0x11, 0x22, 0x00, 0x33]
    = [0x00, 0x11, 0x22, 0x00, 0x33] from rfl, hg] at h
  exact ⟨_, h, by simp⟩

/-- Witness of C12: an output array of `getEncodedBufferSize(5) = 6` bytes. -/
theorem C12_concrete_vector_witness :
    6 ≤ (List.replicate (COBS.getEncodedBufferSize 5) (0 : Byte)).length
    ∧ ∃ E1, COBS.encode [0x00, 0x11, 0x22, 0x00, 0x33] 5
          (List.replicate (COBS.getEncodedBufferSize 5) 0) = some (6, E1)
      ∧ E1.take 6 = [0x01, 0x03, 0x11, 0x22, 0x02, 0x33] :=
  ⟨by decide, C12_concrete_vector (List.replicate (COBS.getEncodedBufferSize 5) 0) (by decide)⟩

/-- C13 (constant overhead).  For every input `M` the length `COBS::encode` returns is at
least `|M| + 1`, and it is exactly `|M| + 1` when `M` has fewer than 254 bytes. -/
theorem C13_constant_overhead (M E : List Byte)
    (hE : COBS.getEncodedBufferSize M.length ≤ E.length) :
    ∃ n E1, COBS.encode M M.length E = some (n, E1)
      ∧ M.length + 1 ≤ n ∧ (M.length < 254 → n = M.length + 1) := by
  have hle := encGroups_length_le [] M
  have hge := encGroups_length_ge [] M
  have hcap : (encGroups [] (M.take M.length)).length ≤ E.length := by
    simp [COBS.getEncodedBufferSize] at hE hle ⊢; omega
  have h := encode_eq M E M.length (Nat.le_refl _) hcap
  simp only [List.take_length] at h
  refine ⟨_, _, h, by simpa using hge, fun hlt => ?_⟩
  have := encGroups_length_small [] M (by simpa using hlt)
  simpa using this

/-- Witness of C13: the three-byte message `[0, 7, 0]`. -/
theorem C13_constant_overhead_witness :
    COBS.getEncodedBufferSize [(0 : Byte), 7, 0].length ≤ [(9 : Byte), 9, 9, 9].length
    ∧ ∃ n E1, COBS.encode [(0 : Byte), 7, 0] [(0 : Byte), 7, 0].length [9, 9, 9, 9]
          = some (n, E1)
      ∧ [(0 : Byte), 7, 0].length + 1 ≤ n
      ∧ ([(0 : Byte), 7, 0].length < 254 → n = [(0 : Byte), 7, 0].length + 1) :=
  ⟨by decide, C13_constant_overhead [0, 7, 0] [9, 9, 9, 9] (by decide)⟩

/-- C14 (decode buffer safety).  Let the encoded array hold at least `size` bytes, of any
values, and let the decoded array have exactly `size` bytes.  `COBS::decode` then returns a
value `n <= size` without an access outside either array, so every store is below `size`; and
it gives the same result when the encoded array is cut to its first `size` bytes, so every
load is below `size` too.  Hence `update()`, which passes `_receiveBufferIndex` as `size` and
a decode buffer of that many bytes, runs to completion from every state within the class
invariant. -/
theorem C14_decode_buffer_safety (enc D : List Byte) (size : Nat)
    (hsz : size ≤ enc.length) (hD : D.length = size) :
    (∃ n D1, COBS.decode enc size D = some (n, D1) ∧ n ≤ size ∧ D1.length = size
      ∧ COBS.decode (enc.take size) size D = some (n, D1))
    ∧ ∀ (BufferSize : Nat) (s : PackedSerial BufferSize), PackedSerial.WF s →
        ∀ bytes : List Byte, ∃ s1 calls, PackedSerial.update s bytes = some (s1, calls) := by
  have hle := decGroups_length_le (enc.take size)
  have hlt : (enc.take size).length = size := by rw [List.length_take]; omega
  have hcap : (decGroups (enc.take size)).1.length ≤ D.length := by omega
  have h1 := decode_eq enc D size hsz hcap
  have h2 := decode_eq (enc.take size) D size (by omega) (by
    rw [List.take_take, Nat.min_self]; exact hcap)
  rw [List.take_take, Nat.min_self] at h2
  refine ⟨⟨_, _, h1, ?_, ?_, h2⟩, fun B s hwf bytes => ?_⟩
  · split <;> omega
  · simp; omega
  · obtain ⟨s1, calls, e, _⟩ := PackedSerial.update_total bytes s hwf
    exact ⟨s1, calls, e⟩

/-- Witness of C14: an input whose second group declares more bytes than remain, read from an
array that is longer than `size`. -/
theorem C14_decode_buffer_safety_witness :
    ((3 : Nat) ≤ [(2 : Byte), 7, 9, 0, 0].length ∧ [(0 : Byte), 0, 0].length = 3)
    ∧ ((∃ n D1, COBS.decode [2, 7, 9, 0, 0] 3 [0, 0, 0] = some (n, D1) ∧ n ≤ 3
          ∧ D1.length = 3
          ∧ COBS.decode ([(2 : Byte), 7, 9, 0, 0].take 3) 3 [0, 0, 0] = some (n, D1))
      ∧ ∀ (BufferSize : Nat) (s : PackedSerial BufferSize), PackedSerial.WF s →
          ∀ bytes : List Byte, ∃ s1 calls, PackedSerial.update s bytes = some (s1, calls)) :=
  ⟨by decide, C14_decode_buffer_safety [2, 7, 9, 0, 0] [0, 0, 0] 3 (by decide) (by decide)⟩

/-- C15 (end to end delivery when the frame fits).  Let `M` be a non-empty message and let
`getEncodedBufferSize(|M|) <= BufferSize - 1`.  The bytes that `send` writes for `M` (from any
object with a stream set), fed to a newly constructed `PackedSerial<BufferSize>` with a stream
and a handler set, give exactly one handler call, and its payload is `M`. -/
theorem C15_end_to_end {SenderSize : Nat} (sender : PackedSerial SenderSize) (sink : Nat)
    (BufferSize : Nat) (storage : Fin BufferSize → Byte) (st f : Nat) (M : List Byte)
    (hM : M ≠ []) (hs : sender._stream = some sink)
    (hfit : COBS.getEncodedBufferSize M.length ≤ BufferSize - 1) :
    ∃ written s1, sender.send (some M) M.length = some written
      ∧ PackedSerial.update
          (((PackedSerial.construct BufferSize storage).setStream st).setPacketHandler (some f))
          written = some (s1, [⟨f, M⟩])
      ∧ (⟨f, M⟩ : Invocation).payload.length = M.length := by
  have hle := encGroups_length_le [] M
  obtain ⟨s1, e1⟩ := PackedSerial.update_fresh_frame storage st f (encGroups [] M)
    (encGroups_ne_zero M [] (by simp) (by simp))
  rw [List.take_of_length_le (by
    simp [COBS.getEncodedBufferSize] at hfit hle ⊢; omega), decodeList_encGroups] at e1
  exact ⟨_, s1, PackedSerial.send_eq sender sink M hM hs, e1, rfl⟩

/-- Witness of C15: the message `[0, 7]` sent by one object and received by an assembler of
capacity 4. -/
theorem C15_end_to_end_witness :
    ([(0 : Byte), 7] ≠ [] ∧ (⟨[0, 0], 0, some 5, none⟩ : PackedSerial 2)._stream = some 5
      ∧ COBS.getEncodedBufferSize [(0 : Byte), 7].length ≤ 4 - 1)
    ∧ ∃ written s1,
      (⟨[0, 0], 0, some 5, none⟩ : PackedSerial 2).send (some [0, 7]) [(0 : Byte), 7].length
          = some written
      ∧ PackedSerial.update
          (((PackedSerial.construct 4 (fun _ => 0)).setStream 0).setPacketHandler (some 1))
          written = some (s1, [⟨1, [0, 7]⟩])
      ∧ (⟨1, [0, 7]⟩ : Invocation).payload.length = [(0 : Byte), 7].length :=
  ⟨by decide,
    C15_end_to_end ⟨[0, 0], 0, some 5, none⟩ 5 4 (fun _ => 0) 0 1 [0, 7] (by decide) rfl
      (by decide)⟩

/-- C16 (overflow yields a truncated message).  Feeding `encode(M)` and a delimiter to a
newly constructed assembler with a stream and a handler set gives one handler call whose
payload is an initial segment of `M`, for every capacity and every `M`, in particular when
`encode(M)` is longer than `BufferSize - 1` bytes.  For every `k <= |encode(M)|`,
`COBS::decode` on the first `k` bytes of `encode(M)` returns an initial segment of `M`. -/
theorem C16_overflow_truncates (BufferSize : Nat) (storage : Fin BufferSize → Byte)
    (st f : Nat) (M E : List Byte) (hE : COBS.getEncodedBufferSize M.length ≤ E.length) :
    ∃ n E1, COBS.encode M M.length E = some (n, E1)
      ∧ (∃ s1 payload rest,
          PackedSerial.update
            (((PackedSerial.construct BufferSize storage).setStream st).setPacketHandler
              (some f)) (E1.take n ++ [0]) = some (s1, [⟨f, payload⟩])
          ∧ payload ++ rest = M)
      ∧ ∀ k, k ≤ n → ∀ D : List Byte, k ≤ D.length →
          ∃ m D1 rest, COBS.decode (E1.take k) k D = some (m, D1) ∧ D1.take m ++ rest = M := by
  have hle := encGroups_length_le [] M
  have hcap : (encGroups [] (M.take M.length)).length ≤ E.length := by
    simp [COBS.getEncodedBufferSize] at hE hle ⊢; omega
  have h := encode_eq M E M.length (Nat.le_refl _) hcap
  simp only [List.take_length] at h
  refine ⟨_, _, h, ?_, ?_⟩
  · rw [List.take_left]
    obtain ⟨s1, e1⟩ := PackedSerial.update_fresh_frame storage st f (encGroups [] M)
      (encGroups_ne_zero M [] (by simp) (by simp))
    obtain ⟨rest, hrest⟩ := decodeList_take_encGroups M (BufferSize - 1)
    exact ⟨s1, _, rest, e1, hrest⟩
  · intro k hk D hD
    have htk : List.take k (encGroups [] M ++ List.drop (encGroups [] M).length E)
        = (encGroups [] M).take k := List.take_append_of_le_length hk
    rw [htk]
    obtain ⟨m, D1, hd, htake, _, _⟩ := decode_take ((encGroups [] M).take k) D k
      (by rw [List.length_take]; omega) hD
    rw [List.take_take, Nat.min_self] at htake
    obtain ⟨rest, hrest⟩ := decodeList_take_encGroups M k
    exact ⟨m, D1, rest, hd, by rw [htake]; exact hrest⟩

/-- Witness of C16: the message `[5, 0, 6]`, whose encoding `[2, 5, 2, 6]` is cut to three
bytes by an assembler of capacity 4. -/
theorem C16_overflow_truncates_witness :
    COBS.getEncodedBufferSize [(5 : Byte), 0, 6].length ≤ [(0 : Byte), 0, 0, 0].length
    ∧ ∃ n E1, COBS.encode [(5 : Byte), 0, 6] [(5 : Byte), 0, 6].length [0, 0, 0, 0]
          = some (n, E1)
      ∧ (∃ s1 payload rest,
          PackedSerial.update
            (((PackedSerial.construct 4 (fun _ => 0)).setStream 0).setPacketHandler (some 1))
            (E1.take n ++ [0]) = some (s1, [⟨1, payload⟩])
          ∧ payload ++ rest = [(5 : Byte), 0, 6])
      ∧ ∀ k, k ≤ n → ∀ D : List Byte, k ≤ D.length →
          ∃ m D1 rest, COBS.decode (E1.take k) k D = some (m, D1)
            ∧ D1.take m ++ rest = [(5 : Byte), 0, 6] :=
  ⟨by decide, C16_overflow_truncates 4 (fun _ => 0) 0 1 [5, 0, 6] [0, 0, 0, 0] (by decide)⟩

/-- C17 (buffer index invariant).  In every state reached from a newly constructed assembler
by a sequence of `setStream`, `setPacketHandler`, `update` and `send` calls, for every
capacity: the receive buffer has `BufferSize` bytes and the index is at most `BufferSize - 1`;
every byte buffered below the index is non-zero; the bytes of the buffer from index
`BufferSize - 1` on are still those the array had at construction; and processing one more
byte either leaves the buffer as it is or stores that byte at the current index, which is then
below `BufferSize - 1`. -/
theorem C17_buffer_index_invariant (BufferSize : Nat) (storage : Fin BufferSize → Byte)
    (cs : List Call) (s : PackedSerial BufferSize) (calls : List Invocation)
    (written : List Byte)
    (h : PackedSerial.callAll cs (PackedSerial.construct BufferSize storage)
      = some (s, calls, written)) :
    s._receiveBufferIndex ≤ BufferSize - 1
    ∧ s._receiveBuffer.length = BufferSize
    ∧ (∀ b ∈ s._receiveBuffer.take s._receiveBufferIndex, b ≠ 0)
    ∧ (∀ i, BufferSize - 1 ≤ i → s._receiveBuffer[i]? = (List.ofFn storage)[i]?)
    ∧ ∀ (data : Byte) (s1 : PackedSerial BufferSize) (calls1 : List Invocation),
        PackedSerial.receive s data = some (s1, calls1) →
        s1._receiveBufferIndex ≤ BufferSize - 1
        ∧ (s1._receiveBuffer = s._receiveBuffer
          ∨ (s._receiveBufferIndex < BufferSize - 1
            ∧ s1._receiveBuffer = s._receiveBuffer.set s._receiveBufferIndex data)) := by
  obtain ⟨hwf, hnz, hkeep⟩ := PackedSerial.callAll_inv cs _ s calls written h
    (PackedSerial.WF_construct storage) (by simp [PackedSerial.construct])
  refine ⟨hwf.2, hwf.1, hnz, hkeep, fun data s1 calls1 h1 => ?_⟩
  obtain ⟨a1, _, _, a4⟩ := PackedSerial.receive_inv s s1 data calls1 h1 hwf hnz
  exact ⟨a1.2, a4⟩

/-- Witness of C17: capacity 3; a frame is received, then three more bytes of which the third
is dropped, then a message is sent. -/
theorem C17_buffer_index_invariant_witness :
    PackedSerial.callAll
        [.setStream 0, .setPacketHandler (some 1), .update [2, 5, 0, 7, 7, 7],
          .send (some [4]) 1]
        (PackedSerial.construct 3 (fun _ => 0))
      = some (⟨[7, 7, 0], 2, some 0, some 1⟩, [⟨1, [5]⟩], [2, 4, 0])
    ∧ ((⟨[7, 7, 0], 2, some 0, some 1⟩ : PackedSerial 3)._receiveBufferIndex ≤ 3 - 1
      ∧ (⟨[7, 7, 0], 2, some 0, some 1⟩ : PackedSerial 3)._receiveBuffer.length = 3
      ∧ (∀ b ∈ (⟨[7, 7, 0], 2, some 0, some 1⟩ : PackedSerial 3)._receiveBuffer.take
            (⟨[7, 7, 0], 2, some 0, some 1⟩ : PackedSerial 3)._receiveBufferIndex, b ≠ 0)
      ∧ (∀ i, 3 - 1 ≤ i →
          (⟨[7, 7, 0], 2, some 0, some 1⟩ : PackedSerial 3)._receiveBuffer[i]?
            = (List.ofFn (fun _ : Fin 3 => (0 : Byte)))[i]?)
      ∧ ∀ (data : Byte) (s1 : PackedSerial 3) (calls1 : List Invocation),
          PackedSerial.receive (⟨[7, 7, 0], 2, some 0, some 1⟩ : PackedSerial 3) data
              = some (s1, calls1) →
          s1._receiveBufferIndex ≤ 3 - 1
          ∧ (s1._receiveBuffer
                = (⟨[7, 7, 0], 2, some 0, some 1⟩ : PackedSerial 3)._receiveBuffer
            ∨ ((⟨[7, 7, 0], 2, some 0, some 1⟩ : PackedSerial 3)._receiveBufferIndex < 3 - 1
              ∧ s1._receiveBuffer
                  = (⟨[7, 7, 0], 2, some 0, some 1⟩ : PackedSerial 3)._receiveBuffer.set
                      (⟨[7, 7, 0], 2, some 0, some 1⟩ : PackedSerial 3)._receiveBufferIndex
                      data))) :=
  ⟨by decide,
    C17_buffer_index_invariant 3 (fun _ => 0)
      [.setStream 0, .setPacketHandler (some 1), .update [2, 5, 0, 7, 7, 7], .send (some [4]) 1]
      ⟨[7, 7, 0], 2, some 0, some 1⟩ [⟨1, [5]⟩] [2, 4, 0] (by decide)⟩

/-- C18 (the sizing bound is attained).  For every input `M` of non-zero bytes `COBS::encode`
returns exactly `getEncodedBufferSize(|M|) = |M| + |M| / 254 + 1`, and such an input exists
for every length `n`.  An input of exactly 254 non-zero bytes encodes to 256 bytes: the code
0xFF, the 254 literals, and a final code 0x01. -/
theorem C18_sizing_bound_attained (n : Nat) :
    (∃ M : List Byte, M.length = n ∧ ∀ b ∈ M, b ≠ 0)
    ∧ ∀ M : List Byte, M.length = n → (∀ b ∈ M, b ≠ 0) →
        ∀ E : List Byte, COBS.getEncodedBufferSize n ≤ E.length →
          ∃ E1, COBS.encode M n E = some (COBS.getEncodedBufferSize n, E1)
            ∧ COBS.getEncodedBufferSize n = n + n / 254 + 1
            ∧ (n = 254 → COBS.getEncodedBufferSize n = 256
                ∧ E1.take 256 = 0xFF :: M ++ [0x01]) := by
  refine ⟨⟨List.replicate n 1, by simp, ?_⟩, ?_⟩
  · intro b hb
    rw [List.eq_of_mem_replicate hb]
    decide
  · intro M hlen hnz E hE
    subst hlen
    have hl := encGroups_length_nonzero M [] (by simp) hnz
    simp only [List.length_nil, Nat.zero_add] at hl
    have hsize : (encGroups [] M).length = COBS.getEncodedBufferSize M.length := by
      simp [COBS.getEncodedBufferSize, hl]
    have h := encode_eq M E M.length (Nat.le_refl _) (by
      simp only [List.take_length]; omega)
    simp only [List.take_length] at h
    rw [hsize] at h
    refine ⟨_, h, rfl, fun h254 => ?_⟩
    have hfull := encGroups_full_group M [] (by simp) (by simpa using h254) hnz
    have h256 : COBS.getEncodedBufferSize M.length = 256 := by
      simp [COBS.getEncodedBufferSize, h254]
    refine ⟨h256, ?_⟩
    have hlen256 : (encGroups [] M).length = 256 := hsize.trans h256
    rw [List.take_left' hlen256, hfull]
    simp

/-- C19 (delimiter without a handler).  With no packet handler set, processing a delimiter
0x00 makes no handler call and sets the buffer index to 0, whatever the buffer and the index
are (no decode is run, so not even an index beyond the buffer can fault); the buffer, the
stream reference and the handler reference stay as they were.  With or without a handler,
from a state within the class invariant, the index after a delimiter is 0 and both references
are unchanged. -/
theorem C19_delimiter_without_handler {BufferSize : Nat} (s : PackedSerial BufferSize)
    (h : s._onPacketFunction = none) :
    PackedSerial.receive s 0 = some ({ s with _receiveBufferIndex := 0 }, [])
    ∧ (s._stream ≠ none →
        PackedSerial.update s [0] = some ({ s with _receiveBufferIndex := 0 }, []))
    ∧ ∀ t : PackedSerial BufferSize, PackedSerial.WF t →
        ∃ t1 calls, PackedSerial.receive t 0 = some (t1, calls)
          ∧ t1._receiveBufferIndex = 0 ∧ t1._stream = t._stream
          ∧ t1._onPacketFunction = t._onPacketFunction
          ∧ t1._receiveBuffer = t._receiveBuffer := by
  have h1 := PackedSerial.receive_delim_none s h
  refine ⟨h1, fun hs => ?_, fun t ht => ?_⟩
  · simp [PackedSerial.update, hs, PackedSerial.updateLoop, h1]
  · obtain ⟨calls, e, _⟩ := PackedSerial.receive_delim t ht
    exact ⟨_, calls, e, rfl, rfl, rfl, rfl⟩

/-- Witness of C19: a state without a handler whose index lies beyond its buffer. -/
theorem C19_delimiter_without_handler_witness :
    (⟨[4, 9], 7, some 0, none⟩ : PackedSerial 2)._onPacketFunction = none
    ∧ (PackedSerial.receive (⟨[4, 9], 7, some 0, none⟩ : PackedSerial 2) 0
          = some ({ (⟨[4, 9], 7, some 0, none⟩ : PackedSerial 2) with
                      _receiveBufferIndex := 0 }, [])
      ∧ ((⟨[4, 9], 7, some 0, none⟩ : PackedSerial 2)._stream ≠ none →
          PackedSerial.update (⟨[4, 9], 7, some 0, none⟩ : PackedSerial 2) [0]
            = some ({ (⟨[4, 9], 7, some 0, none⟩ : PackedSerial 2) with
                        _receiveBufferIndex := 0 }, []))
      ∧ ∀ t : PackedSerial 2, PackedSerial.WF t →
          ∃ t1 calls, PackedSerial.receive t 0 = some (t1, calls)
            ∧ t1._receiveBufferIndex = 0 ∧ t1._stream = t._stream
            ∧ t1._onPacketFunction = t._onPacketFunction
            ∧ t1._receiveBuffer = t._receiveBuffer) :=
  ⟨rfl, C19_delimiter_without_handler ⟨[4, 9], 7, some 0, none⟩ rfl⟩

/-- C20 (zero bytes are group boundaries).  For all byte sequences `A` and `B`, the encoding
of `A ++ [0x00] ++ B` is the encoding of `A` followed by the encoding of `B`: the returned
lengths add up and the encoded bytes are the concatenation. -/
theorem C20_zero_is_group_boundary (A B EA EB E : List Byte)
    (hA : COBS.getEncodedBufferSize A.length ≤ EA.length)
    (hB : COBS.getEncodedBufferSize B.length ≤ EB.length)
    (hE : COBS.getEncodedBufferSize (A ++ [0x00] ++ B).length ≤ E.length) :
    ∃ nA EA1 nB EB1 n E1,
      COBS.encode A A.length EA = some (nA, EA1)
      ∧ COBS.encode B B.length EB = some (nB, EB1)
      ∧ COBS.encode (A ++ [0x00] ++ B) (A ++ [0x00] ++ B).length E = some (n, E1)
      ∧ n = nA + nB ∧ E1.take n = EA1.take nA ++ EB1.take nB := by
  have capOf : ∀ M X : List Byte, COBS.getEncodedBufferSize M.length ≤ X.length →
      (encGroups [] (M.take M.length)).length ≤ X.length := by
    intro M X hX
    have hle := encGroups_length_le [] M
    simp [COBS.getEncodedBufferSize] at hX hle ⊢; omega
  have h1 := encode_eq A EA A.length (Nat.le_refl _) (capOf A EA hA)
  have h2 := encode_eq B EB B.length (Nat.le_refl _) (capOf B EB hB)
  have h3 := encode_eq (A ++ [0x00] ++ B) E (A ++ [0x00] ++ B).length (Nat.le_refl _)
    (capOf _ E hE)
  simp only [List.take_length] at h1 h2 h3
  have hsplit : encGroups [] (A ++ [0x00] ++ B) = encGroups [] A ++ encGroups [] B := by
    rw [List.append_assoc, List.singleton_append]
    exact encGroups_append_zero A B []
  refine ⟨_, _, _, _, _, _, h1, h2, h3, ?_, ?_⟩
  · rw [hsplit, List.length_append]
  · rw [List.take_left, List.take_left, List.take_left, hsplit]

/-- Witness of C20: `A = [7]` and `B = [0, 8]`. -/
theorem C20_zero_is_group_boundary_witness :
    (COBS.getEncodedBufferSize [(7 : Byte)].length ≤ [(0 : Byte), 0].length
      ∧ COBS.getEncodedBufferSize [(0 : Byte), 8].length ≤ [(0 : Byte), 0, 0].length
      ∧ COBS.getEncodedBufferSize ([(7 : Byte)] ++ [0x00] ++ [0, 8]).length
          ≤ [(0 : Byte), 0, 0, 0, 0].length)
    ∧ ∃ nA EA1 nB EB1 n E1,
      COBS.encode [(7 : Byte)] [(7 : Byte)].length [0, 0] = some (nA, EA1)
      ∧ COBS.encode [(0 : Byte), 8] [(0 : Byte), 8].length [0, 0, 0] = some (nB, EB1)
      ∧ COBS.encode ([(7 : Byte)] ++ [0x00] ++ [0, 8]) ([(7 : Byte)] ++ [0x00] ++ [0, 8]).length
          [0, 0, 0, 0, 0] = some (n, E1)
      ∧ n = nA + nB ∧ E1.take n = EA1.take nA ++ EB1.take nB :=
  ⟨by decide,
    C20_zero_is_group_boundary [7] [0, 8] [0, 0] [0, 0, 0] [0, 0, 0, 0, 0] (by decide)
      (by decide) (by decide)⟩
